import Mathlib

/-!
# PasswordManager: line scanner and rewriter (`src/src/file_utils.c`)

A shallow embedding of the four file operations of `file_utils.c`.

* A file (and the temporary file) is the list of its bytes.
* A `const char *` argument is the list of the bytes of the C string it points to.
* `fgets` is modelled on a stream (the unread rest of a file); the buffer it fills is
  read back by the string functions through `cstr`, the bytes before the first NUL.
* A `char *` result is `Option (List Byte)`, `none` being `NULL`.
  Allocation (`malloc`, `realloc`) and `fopen`/`tmpfile` are taken to succeed.
-/

namespace PasswordManager

/-- A byte of a file or of a C string. -/
abbrev Byte := Nat

/-- The line terminator `'\n'`. -/
abbrev LF : Byte := 10

/-- The bytes of an ASCII string literal. -/
def ascii (s : String) : List Byte := s.toList.map Char.toNat

/-- What the C string functions see in a buffer: the bytes before the first NUL. -/
def cstr : List Byte → List Byte
  | [] => []
  | c :: s => if c = 0 then [] else c :: cstr s

/-- The bytes `fgets` stores when the buffer has room for `room` of them: it stops after a
line terminator, at end of file, or when the room is used up. -/
def fgets_take : Nat → List Byte → List Byte
  | 0, _ => []
  | _ + 1, [] => []
  | room + 1, c :: s => if c = LF then [c] else c :: fgets_take room s

/-- The call `fgets(line, size, stream)`: `none` (NULL) at end of file, otherwise the bytes
stored in `line` and the unread rest of the stream. -/
def fgets (size : Nat) (stream : List Byte) : Option (List Byte × List Byte) :=
  match stream with
  | [] => none
  | _ :: _ =>
    let line := fgets_take (size - 1) stream
    some (line, stream.drop line.length)

/-- The successive buffers of `while (fgets(line, size, stream))`, `fuel` iterations at most. -/
def read_lines_fuel (size : Nat) : Nat → List Byte → List (List Byte)
  | 0, _ => []
  | fuel + 1, stream =>
    match fgets size stream with
    | none => []
    | some (line, rest) => line :: read_lines_fuel size fuel rest

/-- The successive buffers of `while (fgets(line, size, stream))` over a whole stream; every
iteration reads at least one byte, so the length of the stream is fuel enough
(`read_lines_cons`, `flatten_read_lines`). -/
def read_lines (size : Nat) (stream : List Byte) : List (List Byte) :=
  read_lines_fuel size stream.length stream

/-- The call `strstr(haystack, needle)` as an offset into `haystack`: the start of the first
occurrence of `needle`, `none` (NULL) when there is none. -/
def strstr : List Byte → List Byte → Option Nat
  | [], needle => if needle = [] then some 0 else none
  | c :: s, needle =>
    if needle.isPrefixOf (c :: s) then some 0 else (strstr s needle).map (· + 1)

/-- The body of the first loop of `find_and_append_data`: what is written to the temporary
file for one buffer `line`. -/
def append_line (find append line : List Byte) : List Byte :=
  match strstr (cstr line) find with
  | some position => (cstr line).take (position + find.length) ++ append ++ [LF]
  | none => cstr line

/-- The temporary file of `find_and_append_data` after the first loop. -/
def staged (file find append : List Byte) : List Byte :=
  ((read_lines 1024 file).map (append_line find append)).flatten

/-- The bytes the second loop of `find_and_append_data` writes (`fputs` of each buffer read
from the temporary file). -/
def copied (tmp : List Byte) : List Byte :=
  ((read_lines 1024 tmp).map cstr).flatten

/-- A file after `written` has been written to it from offset 0. -/
def overwrite (file written : List Byte) : List Byte :=
  written ++ file.drop written.length

/-- The call `ftruncate(fd, length)`: the file cut, or extended with NUL bytes, to `length`. -/
def ftruncate (file : List Byte) (length : Nat) : List Byte :=
  file.take length ++ List.replicate (length - file.length) 0

/-- The content of the file at `path` after `find_and_append_data(path, find, append)`. -/
def find_and_append_data (file find append : List Byte) : List Byte :=
  let written := copied (staged file find append)
  ftruncate (overwrite file written) written.length

/-- The result of `find_and_return_inline_data` once `found` points after the marker: the
rest of the buffer, a final line terminator removed. -/
def strip_newline (found : List Byte) : List Byte :=
  if found.getLast? = some LF then found.dropLast else found

/-- The loop of `find_and_return_inline_data` over the buffers still to read. -/
def find_and_return_inline_data_loop (find : List Byte) : List (List Byte) → Option (List Byte)
  | [] => none
  | line :: rest =>
    match strstr (cstr line) find with
    | some position => some (strip_newline ((cstr line).drop (position + find.length)))
    | none => find_and_return_inline_data_loop find rest

/-- The value of `find_and_return_inline_data(path, find)` on the file with these bytes. -/
def find_and_return_inline_data (file find : List Byte) : Option (List Byte) :=
  find_and_return_inline_data_loop find (read_lines 256 file)

/-- The loop of `return_inline_data_from_to` over the buffers still to read. -/
def return_inline_data_from_to_loop (from_ to_ : List Byte) :
    List (List Byte) → Option (List Byte)
  | [] => none
  | line :: rest =>
    match strstr (cstr line) from_ with
    | some position =>
      let start := (cstr line).drop (position + from_.length)
      match strstr start to_ with
      | some length => some (start.take length)
      | none => return_inline_data_from_to_loop from_ to_ rest
    | none => return_inline_data_from_to_loop from_ to_ rest

/-- The value of `return_inline_data_from_to(path, from, to)`. -/
def return_inline_data_from_to (file from_ to_ : List Byte) : Option (List Byte) :=
  return_inline_data_from_to_loop from_ to_ (read_lines 1024 file)

/-- The loop of `return_lines_from_to` over the buffers still to read, from the state
`recording`, `output` (`none` while `output` is NULL). -/
def return_lines_from_to_loop (from_ to_ : List Byte) :
    List (List Byte) → Bool → Option (List Byte) → Option (List Byte)
  | [], _, output => output
  | line :: rest, true, output =>
    if (strstr (cstr line) to_).isSome then output
    else return_lines_from_to_loop from_ to_ rest true (some (output.getD [] ++ cstr line))
  | line :: rest, false, output =>
    if (strstr (cstr line) from_).isSome then return_lines_from_to_loop from_ to_ rest true output
    else return_lines_from_to_loop from_ to_ rest false output

/-- The value of `return_lines_from_to(path, from, to)`: the accumulated `output`, a final
line terminator removed. -/
def return_lines_from_to (file from_ to_ : List Byte) : Option (List Byte) :=
  (return_lines_from_to_loop from_ to_ (read_lines 1024 file) false none).map strip_newline

/-! ## The notions of the specification -/

/-- No NUL byte: the bytes form a C string, a file holds text. -/
def NulFree (s : List Byte) : Prop := ∀ b ∈ s, b ≠ 0

instance (s : List Byte) : Decidable (NulFree s) :=
  inferInstanceAs (Decidable (∀ b ∈ s, b ≠ 0))

/-- No line terminator among the bytes. -/
def NoLF (s : List Byte) : Prop := ∀ b ∈ s, b ≠ LF

instance (s : List Byte) : Decidable (NoLF s) :=
  inferInstanceAs (Decidable (∀ b ∈ s, b ≠ LF))

/-- The lines of a file: each ends with its line terminator, except possibly the last one,
which ends at end of file. -/
def splitLines : List Byte → List (List Byte)
  | [] => []
  | c :: s =>
    if c = LF then [c] :: splitLines s
    else
      match splitLines s with
      | [] => [[c]]
      | l :: ls => (c :: l) :: ls

/-- A list of lines as `splitLines` produces them: no line is empty, a line terminator
stands only at the end of a line, and every line but the last has one. -/
def WellSplit : List (List Byte) → Prop
  | [] => True
  | l :: ls => l ≠ [] ∧ NoLF l.dropLast ∧ (ls ≠ [] → l.getLast? = some LF) ∧ WellSplit ls

/-- The piece `p` that the line `l` contributes under Append-After-Match with marker `M` and
insertion text `T`: a line without `M` contributes itself; a line with `M` contributes its
prefix up to and including the first occurrence of `M`, then `T`, then one line terminator. -/
def PieceOf (M T l p : List Byte) : Prop :=
  (¬ M <:+: l → p = l) ∧
  (M <:+: l → ∃ pre post, l = pre ++ M ++ post ∧
    (∀ pre' post', l = pre' ++ M ++ post' → pre.length ≤ pre'.length) ∧
    p = pre ++ M ++ T ++ [LF])

/-- The line `l` contains `from_`, and `to_` occurs in it at or after the end of that
occurrence of `from_`. -/
def HasInlineRange (from_ to_ l : List Byte) : Prop :=
  ∃ pre rest, l = pre ++ from_ ++ rest ∧ to_ <:+: rest

/-- The line `l` contains `from_`, and `to_` occurs in it at or after the end of the first
occurrence of `from_`. -/
def HasInlineRangeAtFirst (from_ to_ l : List Byte) : Prop :=
  ∃ pre rest, l = pre ++ from_ ++ rest ∧
    (∀ pre' rest', l = pre' ++ from_ ++ rest' → pre.length ≤ pre'.length) ∧ to_ <:+: rest

/-- A line terminator, if the bytes hold one, is their last byte: the shape of a buffer that
`fgets` has filled. -/
def TerminatorLast (l : List Byte) : Prop := ∀ a b, l = a ++ LF :: b → b = []

/-- No line is recorded by Extract-Line-Range on the lines `L`: no line contains `from_`, or
the first line containing `from_` is the last line, or the line right after the first line
containing `from_` contains `to_`. -/
def NoLineRecorded (from_ to_ : List Byte) (L : List (List Byte)) : Prop :=
  (∀ l ∈ L, ¬ from_ <:+: l) ∨
  (∃ before lf, L = before ++ [lf] ∧ (∀ l ∈ before, ¬ from_ <:+: l) ∧ from_ <:+: lf) ∨
  (∃ before lf next after, L = before ++ lf :: next :: after ∧
    (∀ l ∈ before, ¬ from_ <:+: l) ∧ from_ <:+: lf ∧ to_ <:+: next)

/-! ## C strings -/

theorem cstr_of_nulFree {s : List Byte} (h : NulFree s) : cstr s = s := by
  induction s with
  | nil => rfl
  | cons c s ih =>
    have hc : c ≠ 0 := h c (List.mem_cons_self c s)
    have hs : NulFree s := fun b hb => h b (List.mem_cons_of_mem c hb)
    simp [cstr, hc, ih hs]

theorem cstr_isPrefix (s : List Byte) : cstr s <+: s := by
  induction s with
  | nil => exact List.prefix_refl _
  | cons c s ih =>
    by_cases hc : c = 0
    · simp [cstr, hc]
    · simpa [cstr, hc] using ih

theorem nulFree_cstr (s : List Byte) : NulFree (cstr s) := by
  induction s with
  | nil => intro b hb; simp [cstr] at hb
  | cons c s ih =>
    by_cases hc : c = 0
    · intro b hb; simp [cstr, hc] at hb
    · intro b hb
      simp only [cstr, hc, if_false, List.mem_cons] at hb
      rcases hb with rfl | hb
      · exact hc
      · exact ih b hb

theorem NulFree.append {s t : List Byte} (hs : NulFree s) (ht : NulFree t) :
    NulFree (s ++ t) := by
  intro b hb
  rcases List.mem_append.mp hb with h | h
  · exact hs b h
  · exact ht b h

theorem NulFree.of_isInfix {s t : List Byte} (h : s <:+: t) (ht : NulFree t) : NulFree s :=
  fun b hb => ht b (h.subset hb)

theorem nulFree_flatten {L : List (List Byte)} (h : ∀ l ∈ L, NulFree l) :
    NulFree L.flatten := by
  intro b hb
  obtain ⟨l, hl, hbl⟩ := List.mem_flatten.mp hb
  exact h l hl b hbl

/-! ## `strstr` -/

theorem strstr_eq_none_iff (h n : List Byte) : strstr h n = none ↔ ¬ n <:+: h := by
  induction h with
  | nil =>
    by_cases hn : n = []
    · simp [strstr, hn]
    · simp [strstr, hn]
  | cons c s ih =>
    unfold strstr
    by_cases hp : n.isPrefixOf (c :: s) = true
    · simp only [hp, if_true]
      have : n <+: c :: s := List.isPrefixOf_iff_prefix.mp hp
      simp [this.isInfix]
    · have hp' : n.isPrefixOf (c :: s) = false := Bool.eq_false_iff.mpr hp
      simp only [hp', Bool.false_eq_true, if_false, Option.map_eq_none']
      rw [ih]
      have hnp : ¬ n <+: c :: s := fun h' => hp (List.isPrefixOf_iff_prefix.mpr h')
      rw [List.infix_cons_iff]
      simp [hnp]

theorem strstr_isSome_iff (h n : List Byte) : (strstr h n).isSome = true ↔ n <:+: h := by
  rw [← not_iff_not, ← strstr_eq_none_iff]
  cases strstr h n <;> simp

/-- An offset returned by `strstr` is the start of an occurrence, and no occurrence starts
earlier. -/
theorem strstr_eq_some {h n : List Byte} {p : Nat} (hp : strstr h n = some p) :
    h = h.take p ++ n ++ h.drop (p + n.length) ∧
      ∀ pre post, h = pre ++ n ++ post → p ≤ pre.length := by
  induction h generalizing p with
  | nil =>
    by_cases hn : n = []
    · simp [strstr, hn] at hp
      subst hp; subst hn
      simp
    · simp [strstr, hn] at hp
  | cons c s ih =>
    unfold strstr at hp
    by_cases hpre : n.isPrefixOf (c :: s) = true
    · simp only [hpre, if_true, Option.some.injEq] at hp
      subst hp
      obtain ⟨t, ht⟩ := List.isPrefixOf_iff_prefix.mp hpre
      refine ⟨?_, fun _ _ _ => Nat.zero_le _⟩
      simp only [List.take_zero, List.nil_append, Nat.zero_add]
      rw [← ht]; simp
    · have hpre' : n.isPrefixOf (c :: s) = false := Bool.eq_false_iff.mpr hpre
      simp only [hpre', Bool.false_eq_true, if_false, Option.map_eq_some'] at hp
      obtain ⟨q, hq, rfl⟩ := hp
      obtain ⟨h1, h2⟩ := ih hq
      refine ⟨?_, ?_⟩
      · simp only [List.take_succ_cons, List.cons_append]
        rw [show q + 1 + n.length = (q + n.length) + 1 by omega, List.drop_succ_cons]
        exact congrArg (c :: ·) h1
      · intro pre post hpp
        cases pre with
        | nil =>
          exfalso
          apply hpre
          exact List.isPrefixOf_iff_prefix.mpr ⟨post, by simpa using hpp.symm⟩
        | cons a pre =>
          simp only [List.cons_append, List.cons.injEq] at hpp
          have := h2 pre post hpp.2
          simp; omega

/-! ## `fgets` and the read loop -/

theorem fgets_take_isPrefix (room : Nat) (s : List Byte) : fgets_take room s <+: s := by
  induction s generalizing room with
  | nil => cases room <;> simp [fgets_take]
  | cons c s ih =>
    cases room with
    | zero => simp [fgets_take]
    | succ room =>
      by_cases hc : c = LF
      · simp [fgets_take, hc]
      · simpa [fgets_take, hc] using ih room

theorem fgets_take_length_pos {room : Nat} {s : List Byte} (hr : 0 < room) (hs : s ≠ []) :
    0 < (fgets_take room s).length := by
  cases room with
  | zero => omega
  | succ room =>
    cases s with
    | nil => exact absurd rfl hs
    | cons c s =>
      by_cases hc : c = LF
      · simp [fgets_take, hc]
      · simp [fgets_take, hc]

theorem fgets_take_append_drop (room : Nat) (s : List Byte) :
    fgets_take room s ++ s.drop (fgets_take room s).length = s := by
  have key : ∀ c t : List Byte, c ++ t = s → c ++ s.drop c.length = s := by
    intro c t h
    subst h
    simp
  obtain ⟨t, ht⟩ := fgets_take_isPrefix room s
  exact key _ t ht

theorem read_lines_fuel_nil (size fuel : Nat) : read_lines_fuel size fuel [] = [] := by
  cases fuel <;> simp [read_lines_fuel, fgets]

/-- With a buffer of two bytes or more, any fuel from the length of the stream on reads the
same buffers: the loop ends at end of file, never for lack of fuel. -/
theorem read_lines_fuel_eq {size : Nat} (hsize : 2 ≤ size) :
    ∀ (fuel₁ fuel₂ : Nat) (s : List Byte), s.length ≤ fuel₁ → s.length ≤ fuel₂ →
      read_lines_fuel size fuel₁ s = read_lines_fuel size fuel₂ s := by
  intro fuel₁
  induction fuel₁ with
  | zero =>
    intro fuel₂ s h₁ _
    have : s = [] := List.length_eq_zero.mp (by omega)
    subst this
    rw [read_lines_fuel_nil, read_lines_fuel_nil]
  | succ fuel₁ ih =>
    intro fuel₂ s h₁ h₂
    cases s with
    | nil => rw [read_lines_fuel_nil, read_lines_fuel_nil]
    | cons c s =>
      cases fuel₂ with
      | zero => simp at h₂
      | succ fuel₂ =>
        have hpos : 0 < (fgets_take (size - 1) (c :: s)).length :=
          fgets_take_length_pos (by omega) (by simp)
        simp only [read_lines_fuel, fgets]
        congr 1
        apply ih
        · simp only [List.length_drop, List.length_cons] at *; omega
        · simp only [List.length_drop, List.length_cons] at *; omega

theorem read_lines_nil (size : Nat) : read_lines size [] = [] := rfl

/-- The loop equation of `while (fgets(line, size, stream))`. -/
theorem read_lines_cons {size : Nat} (hsize : 2 ≤ size) {s : List Byte} (hs : s ≠ []) :
    read_lines size s =
      fgets_take (size - 1) s :: read_lines size (s.drop (fgets_take (size - 1) s).length) := by
  cases s with
  | nil => exact absurd rfl hs
  | cons c s =>
    have hpos : 0 < (fgets_take (size - 1) (c :: s)).length :=
      fgets_take_length_pos (by omega) (by simp)
    simp only [read_lines, List.length_cons, read_lines_fuel, fgets]
    congr 1
    apply read_lines_fuel_eq hsize
    · simp only [List.length_drop, List.length_cons] at *; omega
    · exact Nat.le_refl _

/-- Induction along the read loop. -/
theorem read_lines_induction {size : Nat} (hsize : 2 ≤ size) (P : List Byte → Prop)
    (hnil : P [])
    (hcons : ∀ s, s ≠ [] → P (s.drop (fgets_take (size - 1) s).length) → P s) :
    ∀ s, P s := by
  suffices h : ∀ n (s : List Byte), s.length ≤ n → P s from fun s => h _ s (Nat.le_refl _)
  intro n
  induction n with
  | zero =>
    intro s hs
    have : s = [] := List.length_eq_zero.mp (by omega)
    subst this; exact hnil
  | succ n ih =>
    intro s hn
    by_cases hs : s = []
    · subst hs; exact hnil
    · apply hcons s hs
      have hpos : 0 < (fgets_take (size - 1) s).length :=
        fgets_take_length_pos (by omega) hs
      exact ih _ (by simp only [List.length_drop]; omega)

/-- The buffers read, put end to end, are the stream: nothing is lost or repeated. -/
theorem flatten_read_lines {size : Nat} (hsize : 2 ≤ size) (s : List Byte) :
    (read_lines size s).flatten = s := by
  induction s using read_lines_induction hsize with
  | hnil => rfl
  | hcons s hs ih =>
    rw [read_lines_cons hsize hs, List.flatten_cons, ih, fgets_take_append_drop]

theorem infix_of_mem_read_lines {size : Nat} (hsize : 2 ≤ size) {s c : List Byte}
    (hc : c ∈ read_lines size s) : c <:+: s := by
  rw [← flatten_read_lines hsize s]
  exact List.infix_of_mem_flatten hc

/-! ## Lines and buffers -/

theorem splitLines_eq_nil_iff (s : List Byte) : splitLines s = [] ↔ s = [] := by
  cases s with
  | nil => simp [splitLines]
  | cons c s =>
    by_cases hc : c = LF
    · simp [splitLines, hc]
    · cases h : splitLines s <;> simp [splitLines, hc, h]

theorem flatten_splitLines (s : List Byte) : (splitLines s).flatten = s := by
  induction s with
  | nil => rfl
  | cons c s ih =>
    by_cases hc : c = LF
    · simp [splitLines, hc, ih]
    · cases h : splitLines s with
      | nil =>
        have : s = [] := (splitLines_eq_nil_iff s).mp h
        simp [splitLines, hc, h, this]
      | cons l ls =>
        rw [h] at ih
        simp only [splitLines, hc, if_false, h, List.flatten_cons, List.cons_append]
        rw [← ih, List.flatten_cons]

theorem nulFree_of_mem_splitLines {F l : List Byte} (hF : NulFree F) (hl : l ∈ splitLines F) :
    NulFree l :=
  NulFree.of_isInfix (by rw [← flatten_splitLines F]; exact List.infix_of_mem_flatten hl) hF

/-- The first line of a non-empty stream, against what `fgets` reads from it: `fgets` reads
a prefix of the line, and the whole line when the buffer has room for it. -/
theorem splitLines_first {s : List Byte} (hs : s ≠ []) :
    ∃ l ls, splitLines s = l :: ls ∧ splitLines (s.drop l.length) = ls ∧
      ∀ room, fgets_take room s <+: l ∧ (l.length ≤ room → fgets_take room s = l) := by
  induction s with
  | nil => exact absurd rfl hs
  | cons c s ih =>
    by_cases hc : c = LF
    · refine ⟨[c], splitLines s, by simp [splitLines, hc], by simp, ?_⟩
      intro room
      cases room with
      | zero => simp [fgets_take]
      | succ room => simp [fgets_take, hc]
    · cases h : splitLines s with
      | nil =>
        have hs' : s = [] := (splitLines_eq_nil_iff s).mp h
        subst hs'
        refine ⟨[c], [], by simp [splitLines, hc], by simp [splitLines], ?_⟩
        intro room
        cases room with
        | zero => simp [fgets_take]
        | succ room => cases room <;> simp [fgets_take, hc]
      | cons l ls =>
        have hs' : s ≠ [] := fun h' => by simp [h', splitLines] at h
        obtain ⟨l', ls', h1, h2, h3⟩ := ih hs'
        rw [h] at h1
        obtain ⟨rfl, rfl⟩ := List.cons.inj h1
        refine ⟨c :: l, ls, by simp [splitLines, hc, h], by simpa using h2, ?_⟩
        intro room
        cases room with
        | zero => simp [fgets_take]
        | succ room =>
          obtain ⟨h4, h5⟩ := h3 room
          refine ⟨by simpa [fgets_take, hc] using h4, ?_⟩
          intro hlen
          have := h5 (by simpa using hlen)
          simp [fgets_take, hc, this]

theorem suffix_line_of_mem_splitLines_cons (c : Byte) (s : List Byte) {l : List Byte}
    (hl : l ∈ splitLines s) : ∃ l' ∈ splitLines (c :: s), l <:+ l' := by
  by_cases hc : c = LF
  · exact ⟨l, by simp [splitLines, hc, hl], List.suffix_refl l⟩
  · cases h : splitLines s with
    | nil => rw [h] at hl; simp at hl
    | cons l₀ ls =>
      rw [h] at hl
      rcases List.mem_cons.mp hl with rfl | hl
      · exact ⟨c :: l, by simp [splitLines, hc, h], List.suffix_cons c l⟩
      · exact ⟨l, by simp [splitLines, hc, h, hl], List.suffix_refl l⟩

theorem suffix_line_of_mem_splitLines_drop (n : Nat) (s : List Byte) {l : List Byte}
    (hl : l ∈ splitLines (s.drop n)) : ∃ l' ∈ splitLines s, l <:+ l' := by
  induction n generalizing s l with
  | zero => exact ⟨l, by simpa using hl, List.suffix_refl l⟩
  | succ n ih =>
    cases s with
    | nil => simp [splitLines] at hl
    | cons c s =>
      obtain ⟨l₁, h₁, h₂⟩ := ih s (by simpa using hl)
      obtain ⟨l₂, h₃, h₄⟩ := suffix_line_of_mem_splitLines_cons c s h₁
      exact ⟨l₂, h₃, h₂.trans h₄⟩

/-- Every buffer read is a piece of one line of the file. -/
theorem infix_line_of_mem_read_lines {size : Nat} (hsize : 2 ≤ size) (s : List Byte) :
    ∀ c ∈ read_lines size s, ∃ l ∈ splitLines s, c <:+: l := by
  induction s using read_lines_induction hsize with
  | hnil => intro c hc; simp [read_lines_nil] at hc
  | hcons s hs ih =>
    intro c hc
    rw [read_lines_cons hsize hs] at hc
    obtain ⟨l, ls, h1, _, h3⟩ := splitLines_first hs
    rcases List.mem_cons.mp hc with rfl | hc
    · exact ⟨l, by simp [h1], (h3 (size - 1)).1.isInfix⟩
    · obtain ⟨l₁, h₁, h₂⟩ := ih c hc
      obtain ⟨l₂, h₃, h₄⟩ := suffix_line_of_mem_splitLines_drop _ s h₁
      exact ⟨l₂, h₃, h₂.trans h₄.isInfix⟩

/-- When every line fits the buffer, the buffers read are the lines of the file. -/
theorem read_lines_eq_splitLines {size : Nat} (hsize : 2 ≤ size) (s : List Byte)
    (hlen : ∀ l ∈ splitLines s, l.length ≤ size - 1) : read_lines size s = splitLines s := by
  induction s using read_lines_induction hsize with
  | hnil => rfl
  | hcons s hs ih =>
    obtain ⟨l, ls, h1, h2, h3⟩ := splitLines_first hs
    have hl : fgets_take (size - 1) s = l := (h3 (size - 1)).2 (hlen l (by simp [h1]))
    rw [read_lines_cons hsize hs, hl, h1]
    congr 1
    rw [hl] at ih
    rw [ih, h2]
    intro l' hl'
    rw [h2] at hl'
    exact hlen l' (by simp [h1, hl'])

/-! ## `find_and_append_data` -/

theorem ftruncate_overwrite (file written : List Byte) :
    ftruncate (overwrite file written) written.length = written := by
  simp [ftruncate, overwrite]

/-- A temporary file without NUL bytes is copied back as it is. -/
theorem copied_of_nulFree {tmp : List Byte} (h : NulFree tmp) : copied tmp = tmp := by
  unfold copied
  have hmap : (read_lines 1024 tmp).map cstr = read_lines 1024 tmp := by
    conv_rhs => rw [← List.map_id (read_lines 1024 tmp)]
    apply List.map_congr_left
    intro c hc
    exact cstr_of_nulFree (NulFree.of_isInfix (infix_of_mem_read_lines (by decide) hc) h)
  rw [hmap, flatten_read_lines (by decide)]

theorem find_and_append_data_eq_copied (file find append : List Byte) :
    find_and_append_data file find append = copied (staged file find append) :=
  ftruncate_overwrite _ _

theorem append_line_of_no_match {find : List Byte} (append : List Byte) {line : List Byte}
    (hline : NulFree line) (h : ¬ find <:+: line) : append_line find append line = line := by
  unfold append_line
  rw [cstr_of_nulFree hline, (strstr_eq_none_iff line find).mpr h]

theorem append_line_of_match {find : List Byte} (append : List Byte) {line : List Byte}
    (hline : NulFree line) (h : find <:+: line) :
    ∃ pre post, line = pre ++ find ++ post ∧
      (∀ pre' post', line = pre' ++ find ++ post' → pre.length ≤ pre'.length) ∧
      append_line find append line = pre ++ find ++ append ++ [LF] := by
  unfold append_line
  rw [cstr_of_nulFree hline]
  cases hp : strstr line find with
  | none => exact absurd h ((strstr_eq_none_iff line find).mp hp)
  | some p =>
    obtain ⟨h1, h2⟩ := strstr_eq_some hp
    have hple : p ≤ line.length := by
      have := h2 _ _ h1
      simp only [List.length_take] at this
      omega
    have hlen : p + find.length ≤ line.length := by
      have := congrArg List.length h1
      simp only [List.length_append, List.length_take, List.length_drop] at this
      omega
    refine ⟨line.take p, line.drop (p + find.length), h1, ?_, ?_⟩
    · intro pre' post' h'
      have := h2 pre' post' h'
      simp only [List.length_take]; omega
    · simp only
      congr 2
      have h3 := congrArg (List.take (p + find.length)) h1
      rw [h3]
      rw [List.take_append_of_le_length (by simp; omega)]
      exact List.take_of_length_le (by simp)

theorem nulFree_append_line {find append line : List Byte} (happend : NulFree append) :
    NulFree (append_line find append line) := by
  unfold append_line
  cases strstr (cstr line) find with
  | none => exact nulFree_cstr line
  | some p =>
    simp only
    refine NulFree.append (NulFree.append ?_ happend) ?_
    · exact NulFree.of_isInfix (List.take_prefix _ _).isInfix (nulFree_cstr line)
    · intro b hb
      simp only [List.mem_singleton] at hb
      subst hb; decide

theorem nulFree_staged (file find : List Byte) {append : List Byte} (happend : NulFree append) :
    NulFree (staged file find append) := by
  apply nulFree_flatten
  intro l hl
  obtain ⟨c, _, rfl⟩ := List.mem_map.mp hl
  exact nulFree_append_line happend

/-- With a NUL-free insertion text the file ends up as the temporary file. -/
theorem find_and_append_data_eq_staged (file find : List Byte) {append : List Byte}
    (happend : NulFree append) :
    find_and_append_data file find append = staged file find append := by
  rw [find_and_append_data_eq_copied, copied_of_nulFree (nulFree_staged file find happend)]

/-- When every line fits the buffer, the temporary file is made of one piece per line. -/
theorem staged_eq_of_lines (file find append : List Byte)
    (hlen : ∀ l ∈ splitLines file, l.length ≤ 1023) :
    staged file find append = ((splitLines file).map (append_line find append)).flatten := by
  unfold staged
  rw [read_lines_eq_splitLines (by decide) file hlen]

/-! ## The line structure of a rewritten file -/

theorem splitLines_append_line {d : List Byte} (x : Byte) (rest : List Byte) (hd : NoLF d)
    (hx : x = LF ∨ rest = []) : splitLines (d ++ x :: rest) = (d ++ [x]) :: splitLines rest := by
  induction d with
  | nil =>
    by_cases hc : x = LF
    · simp [splitLines, hc]
    · rcases hx with hx | hx
      · exact absurd hx hc
      · subst hx; simp [splitLines, hc]
  | cons c d ih =>
    have hc : c ≠ LF := hd c (List.mem_cons_self c d)
    have hd' : NoLF d := fun b hb => hd b (List.mem_cons_of_mem c hb)
    have h := ih hd'
    rw [List.cons_append]
    simp only [splitLines, hc, if_false]
    rw [h]
    rfl

theorem splitLines_flatten_of_wellSplit {L : List (List Byte)} (h : WellSplit L) :
    splitLines L.flatten = L := by
  induction L with
  | nil => rfl
  | cons l ls ih =>
    obtain ⟨h1, h2, h3, h4⟩ := h
    have hl : l = l.dropLast ++ [l.getLast h1] := (List.dropLast_append_getLast h1).symm
    have hx : l.getLast h1 = LF ∨ ls.flatten = [] := by
      by_cases hls : ls = []
      · right; subst hls; rfl
      · left
        have := h3 hls
        rw [List.getLast?_eq_getLast l h1] at this
        exact Option.some.inj this
    rw [List.flatten_cons]
    conv_lhs => rw [hl]
    rw [List.append_assoc, List.singleton_append, splitLines_append_line _ _ h2 hx, ih h4, ← hl]

theorem wellSplit_splitLines (s : List Byte) : WellSplit (splitLines s) := by
  induction s with
  | nil => trivial
  | cons c s ih =>
    by_cases hc : c = LF
    · simp only [splitLines, hc, if_true]
      exact ⟨by simp, by intro b hb; simp at hb, fun _ => rfl, ih⟩
    · cases h : splitLines s with
      | nil =>
        simp only [splitLines, hc, if_false, h]
        exact ⟨by simp, by intro b hb; simp at hb, fun h' => absurd rfl h', trivial⟩
      | cons l ls =>
        rw [h] at ih
        obtain ⟨h1, h2, h3, h4⟩ := ih
        simp only [splitLines, hc, if_false, h]
        refine ⟨by simp, ?_, ?_, h4⟩
        · intro b hb
          rw [List.dropLast_cons_of_ne_nil h1] at hb
          rcases List.mem_cons.mp hb with rfl | hb
          · exact hc
          · exact h2 b hb
        · intro hls
          obtain ⟨a, l', rfl⟩ := List.exists_cons_of_ne_nil h1
          rw [List.getLast?_cons_cons]
          exact h3 hls

theorem wellSplit_map {L : List (List Byte)} (f : List Byte → List Byte) (h : WellSplit L)
    (hf : ∀ l ∈ L, l ≠ [] → NoLF l.dropLast →
      f l ≠ [] ∧ NoLF (f l).dropLast ∧ (l.getLast? = some LF → (f l).getLast? = some LF)) :
    WellSplit (L.map f) := by
  induction L with
  | nil => trivial
  | cons l ls ih =>
    obtain ⟨h1, h2, h3, h4⟩ := h
    obtain ⟨g1, g2, g3⟩ := hf l (List.mem_cons_self l ls) h1 h2
    refine ⟨g1, g2, ?_, ih h4 (fun l' hl' => hf l' (List.mem_cons_of_mem l hl'))⟩
    intro hne
    exact g3 (h3 (by intro h'; apply hne; simp [h']))

theorem pieceOf_append_line (M T : List Byte) {l : List Byte} (hl : NulFree l) :
    PieceOf M T l (append_line M T l) :=
  ⟨fun h => append_line_of_no_match T hl h, fun h => append_line_of_match T hl h⟩

theorem append_line_keeps_line {M T l : List Byte} (hl : NulFree l) (hM : NoLF M) (hT : NoLF T)
    (h1 : l ≠ []) (h2 : NoLF l.dropLast) :
    append_line M T l ≠ [] ∧ NoLF (append_line M T l).dropLast ∧
      (l.getLast? = some LF → (append_line M T l).getLast? = some LF) := by
  by_cases h : M <:+: l
  · obtain ⟨pre, post, e, hmin, ha⟩ := append_line_of_match T hl h
    rw [ha]
    refine ⟨by simp, ?_, fun _ => by simp⟩
    rw [List.dropLast_concat]
    intro b hb
    rcases List.mem_append.mp hb with hb | hb
    · rcases List.mem_append.mp hb with hb | hb
      · by_cases hnil : M ++ post = []
        · obtain ⟨hM0, _⟩ := List.append_eq_nil.mp hnil
          have := hmin [] l (by simp [hM0])
          have hpre : pre = [] := List.length_eq_zero.mp (by simpa using this)
          subst hpre; simp at hb
        · apply h2 b
          rw [e, List.append_assoc, List.dropLast_append_of_ne_nil _ hnil]
          exact List.mem_append_left _ hb
      · exact hM b hb
    · exact hT b hb
  · rw [append_line_of_no_match T hl h]
    exact ⟨h1, h2, id⟩

/-! ## `find_and_return_inline_data` -/

theorem find_and_return_inline_data_loop_eq_none_iff (M : List Byte) (L : List (List Byte)) :
    find_and_return_inline_data_loop M L = none ↔ ∀ l ∈ L, strstr (cstr l) M = none := by
  induction L with
  | nil => simp [find_and_return_inline_data_loop]
  | cons l ls ih =>
    unfold find_and_return_inline_data_loop
    cases h : strstr (cstr l) M with
    | none => simp [ih, h]
    | some p => simp [h]

theorem find_and_return_inline_data_loop_append {M : List Byte} {before : List (List Byte)}
    (hbefore : ∀ l ∈ before, strstr (cstr l) M = none) (rest : List (List Byte)) :
    find_and_return_inline_data_loop M (before ++ rest)
      = find_and_return_inline_data_loop M rest := by
  induction before with
  | nil => rfl
  | cons l ls ih =>
    rw [List.cons_append, find_and_return_inline_data_loop,
      hbefore l (List.mem_cons_self l ls)]
    exact ih (fun l' hl' => hbefore l' (List.mem_cons_of_mem l hl'))

/-- What `strstr` finds in a line that contains the marker: the first occurrence. -/
theorem strstr_of_match {h n : List Byte} (hn : n <:+: h) :
    ∃ pre post, h = pre ++ n ++ post ∧
      (∀ pre' post', h = pre' ++ n ++ post' → pre.length ≤ pre'.length) ∧
      strstr h n = some pre.length ∧ h.drop (pre.length + n.length) = post := by
  cases hp : strstr h n with
  | none => exact absurd hn ((strstr_eq_none_iff h n).mp hp)
  | some p =>
    obtain ⟨h1, h2⟩ := strstr_eq_some hp
    have hple : p ≤ h.length := by
      have := h2 _ _ h1
      simp only [List.length_take] at this
      omega
    have hlen : (h.take p).length = p := by simp only [List.length_take]; omega
    refine ⟨h.take p, h.drop (p + n.length), h1, ?_, by rw [hlen], by rw [hlen]⟩
    intro pre' post' h'
    rw [hlen]
    exact h2 pre' post' h'

/-! ## `return_inline_data_from_to` -/

theorem suffix_of_append_eq {pre₁ pre₂ n r₁ r₂ : List Byte}
    (h : pre₁ ++ n ++ r₁ = pre₂ ++ n ++ r₂) (hle : pre₁.length ≤ pre₂.length) : r₂ <:+ r₁ := by
  have h1 : r₁ = (pre₁ ++ n ++ r₁).drop (pre₁.length + n.length) := by
    rw [← List.length_append, List.drop_left]
  have h2 : r₂ = (pre₂ ++ n ++ r₂).drop (pre₂.length + n.length) := by
    rw [← List.length_append, List.drop_left]
  rw [← h] at h2
  rw [h2]
  conv_rhs => rw [h1]
  rw [show pre₂.length + n.length = (pre₁.length + n.length) + (pre₂.length - pre₁.length)
    by omega, ← List.drop_drop]
  exact List.drop_suffix _ _

/-- Whether `to_` follows `from_` on a line does not depend on the occurrence of `from_`
chosen: it then follows the first one. -/
theorem hasInlineRange_iff_atFirst (from_ to_ l : List Byte) :
    HasInlineRange from_ to_ l ↔ HasInlineRangeAtFirst from_ to_ l := by
  constructor
  · rintro ⟨pre, rest, h1, h2⟩
    obtain ⟨pre₀, post₀, g1, g2, _, _⟩ := strstr_of_match (h := l) (n := from_)
      ⟨pre, rest, h1.symm⟩
    refine ⟨pre₀, post₀, g1, g2, ?_⟩
    have hsuf : rest <:+ post₀ := suffix_of_append_eq (g1.symm.trans h1) (g2 pre rest h1)
    exact h2.trans hsuf.isInfix
  · rintro ⟨pre, rest, h1, _, h2⟩
    exact ⟨pre, rest, h1, h2⟩

theorem return_inline_data_from_to_loop_skip {from_ to_ l : List Byte} (hl : NulFree l)
    (h : ¬ HasInlineRange from_ to_ l) (rest : List (List Byte)) :
    return_inline_data_from_to_loop from_ to_ (l :: rest)
      = return_inline_data_from_to_loop from_ to_ rest := by
  rw [return_inline_data_from_to_loop, cstr_of_nulFree hl]
  cases hp : strstr l from_ with
  | none => rfl
  | some p =>
    simp only
    cases hq : strstr (l.drop (p + from_.length)) to_ with
    | none => rfl
    | some q =>
      exfalso
      apply h
      refine ⟨l.take p, l.drop (p + from_.length), (strstr_eq_some hp).1, ?_⟩
      rw [← strstr_isSome_iff, hq]; rfl

theorem return_inline_data_from_to_loop_hit {from_ to_ l : List Byte} (hl : NulFree l)
    (h : HasInlineRange from_ to_ l) (rest : List (List Byte)) :
    ∃ pre mid post, l = pre ++ from_ ++ (mid ++ to_ ++ post) ∧
      (∀ pre' rest', l = pre' ++ from_ ++ rest' → pre.length ≤ pre'.length) ∧
      (∀ mid' post', mid ++ to_ ++ post = mid' ++ to_ ++ post' → mid.length ≤ mid'.length) ∧
      return_inline_data_from_to_loop from_ to_ (l :: rest) = some mid := by
  obtain ⟨pre, r, h1, h2, h3⟩ := (hasInlineRange_iff_atFirst from_ to_ l).mp h
  obtain ⟨pre₀, post₀, g1, g2, g3, g4⟩ := strstr_of_match (h := l) (n := from_)
    ⟨pre, r, h1.symm⟩
  have hle : pre.length = pre₀.length := Nat.le_antisymm (h2 pre₀ post₀ g1) (g2 pre r h1)
  have hto : to_ <:+: post₀ :=
    h3.trans (suffix_of_append_eq (g1.symm.trans h1) (Nat.le_of_eq hle.symm)).isInfix
  obtain ⟨mid, post, k1, k2, k3, _⟩ := strstr_of_match hto
  refine ⟨pre₀, mid, post, by rw [← k1]; exact g1, g2, ?_, ?_⟩
  · intro mid' post' e
    exact k2 mid' post' (k1.trans e)
  · rw [return_inline_data_from_to_loop, cstr_of_nulFree hl, g3]
    simp only [g4, k3]
    rw [k1, List.append_assoc, List.take_left]

theorem return_inline_data_from_to_loop_eq_none_iff {from_ to_ : List Byte}
    {L : List (List Byte)} (hL : ∀ l ∈ L, NulFree l) :
    return_inline_data_from_to_loop from_ to_ L = none
      ↔ ∀ l ∈ L, ¬ HasInlineRange from_ to_ l := by
  induction L with
  | nil => simp [return_inline_data_from_to_loop]
  | cons l ls ih =>
    have hl := hL l (List.mem_cons_self l ls)
    have ih' := ih (fun l' hl' => hL l' (List.mem_cons_of_mem l hl'))
    by_cases h : HasInlineRange from_ to_ l
    · obtain ⟨_, mid, _, _, _, _, hr⟩ := return_inline_data_from_to_loop_hit hl h ls
      rw [hr]
      simp only [reduceCtorEq, List.mem_cons, forall_eq_or_imp, false_iff, not_and]
      exact fun h' => absurd h h'
    · rw [return_inline_data_from_to_loop_skip hl h, ih']
      simp [h]

/-! ## `find_and_append_data` line by line -/

theorem find_and_append_data_eq_map (F M : List Byte) {T : List Byte} (hT : NulFree T)
    (hlen : ∀ l ∈ splitLines F, l.length ≤ 1023) :
    find_and_append_data F M T = ((splitLines F).map (append_line M T)).flatten := by
  rw [find_and_append_data_eq_staged F M hT, staged_eq_of_lines F M T hlen]

theorem splitLines_find_and_append_data {F M T : List Byte} (hF : NulFree F) (hT : NulFree T)
    (hlen : ∀ l ∈ splitLines F, l.length ≤ 1023) (hM : NoLF M) (hT' : NoLF T) :
    splitLines (find_and_append_data F M T) = (splitLines F).map (append_line M T) := by
  rw [find_and_append_data_eq_map F M hT hlen]
  apply splitLines_flatten_of_wellSplit
  apply wellSplit_map _ (wellSplit_splitLines F)
  exact fun l hl h1 h2 =>
    append_line_keeps_line (nulFree_of_mem_splitLines hF hl) hM hT' h1 h2

/-- Rewriting a rewritten line changes nothing: the marker is found at the same place. -/
theorem append_line_append_line (M : List Byte) {T l : List Byte} (hl : NulFree l)
    (hT : NulFree T) : append_line M T (append_line M T l) = append_line M T l := by
  by_cases h : M <:+: l
  · obtain ⟨pre, post, e, hmin, ha⟩ := append_line_of_match T hl h
    have hnf : NulFree (pre ++ M ++ T ++ [LF]) := by
      rw [← ha]; exact nulFree_append_line hT
    have hinf : M <:+: pre ++ M ++ T ++ [LF] := ⟨pre, T ++ [LF], by simp⟩
    obtain ⟨pre₂, post₂, e₂, hmin₂, ha₂⟩ := append_line_of_match T hnf hinf
    rw [ha, ha₂]
    have hle : pre₂.length ≤ pre.length := hmin₂ pre (T ++ [LF]) (by simp)
    have hp₂ : pre₂ ++ M <+: pre ++ M ++ T ++ [LF] := ⟨post₂, e₂.symm⟩
    have hp : pre ++ M <+: pre ++ M ++ T ++ [LF] := ⟨T ++ [LF], by simp⟩
    obtain ⟨t, ht⟩ := List.prefix_of_prefix_length_le hp₂ hp (by simp; omega)
    have hge : pre.length ≤ pre₂.length := hmin pre₂ (t ++ post) (by
      rw [e, ← ht]; simp)
    have hq₂ : pre₂ <+: pre ++ M ++ T ++ [LF] := ⟨M ++ post₂, by rw [e₂]; simp⟩
    have hq : pre <+: pre ++ M ++ T ++ [LF] := ⟨M ++ T ++ [LF], by simp⟩
    have : pre₂ = pre :=
      (List.prefix_of_prefix_length_le hq₂ hq hle).eq_of_length (Nat.le_antisymm hle hge)
    rw [this]
  · rw [append_line_of_no_match T hl h, append_line_of_no_match T hl h]

/-! ## `return_lines_from_to` -/

theorem return_lines_from_to_loop_seek {from_ : List Byte} (to_ : List Byte)
    {before : List (List Byte)} (hbefore : ∀ l ∈ before, strstr (cstr l) from_ = none)
    (rest : List (List Byte)) (output : Option (List Byte)) :
    return_lines_from_to_loop from_ to_ (before ++ rest) false output
      = return_lines_from_to_loop from_ to_ rest false output := by
  induction before with
  | nil => rfl
  | cons l ls ih =>
    rw [List.cons_append, return_lines_from_to_loop, hbefore l (List.mem_cons_self l ls)]
    exact ih (fun l' hl' => hbefore l' (List.mem_cons_of_mem l hl'))

theorem return_lines_from_to_loop_record (from_ : List Byte) {to_ : List Byte}
    {mid : List (List Byte)} (hmid : ∀ l ∈ mid, strstr (cstr l) to_ = none)
    (rest : List (List Byte)) (output : Option (List Byte)) :
    return_lines_from_to_loop from_ to_ (mid ++ rest) true output
      = return_lines_from_to_loop from_ to_ rest true
          (if mid = [] then output else some (output.getD [] ++ (mid.map cstr).flatten)) := by
  induction mid generalizing output with
  | nil => rfl
  | cons l ls ih =>
    rw [List.cons_append, return_lines_from_to_loop, hmid l (List.mem_cons_self l ls)]
    simp only [Option.isSome_none, Bool.false_eq_true, if_false]
    rw [ih (fun l' hl' => hmid l' (List.mem_cons_of_mem l hl'))]
    by_cases hls : ls = []
    · subst hls; simp
    · simp [hls]

theorem terminated_of_wellSplit_append {A : List (List Byte)} {l : List Byte}
    {B : List (List Byte)} (h : WellSplit (A ++ l :: B)) (hB : B ≠ []) :
    l ≠ [] ∧ l.getLast? = some LF := by
  induction A with
  | nil => exact ⟨h.1, h.2.2.1 hB⟩
  | cons a A ih => exact ih h.2.2.2

/-! ## Claims -/

/-- C1 (amended): for a NUL-free file `F` whose lines are at most 1023 bytes each, a marker
`M` and an insertion text `T` (a C string), the file after `find_and_append_data(F, M, T)` is
the concatenation, in line order, of one piece per old line: a line containing `M` gives its
prefix up to and including the first occurrence of `M`, then `T`, then one line terminator; a
line without `M` gives itself. When neither `M` nor `T` contains a line terminator, these
pieces are exactly the lines of the new file, so it has as many lines as the old one and its
line `i` comes from line `i` of the old file. -/
theorem find_and_append_data_pieces (F M T : List Byte) (hF : NulFree F) (hT : NulFree T)
    (hlen : ∀ l ∈ splitLines F, l.length ≤ 1023) :
    ∃ pieces : List (List Byte),
      List.Forall₂ (PieceOf M T) (splitLines F) pieces ∧
      find_and_append_data F M T = pieces.flatten ∧
      (NoLF M → NoLF T → splitLines (find_and_append_data F M T) = pieces) := by
  refine ⟨(splitLines F).map (append_line M T), ?_, find_and_append_data_eq_map F M hT hlen,
    fun hM hT' => splitLines_find_and_append_data hF hT hlen hM hT'⟩
  rw [List.forall₂_map_right_iff, List.forall₂_same]
  exact fun l hl => pieceOf_append_line M T (nulFree_of_mem_splitLines hF hl)

/-- Instance of C1 (amended) on the file `x`, `name=old`, `y`. -/
theorem find_and_append_data_pieces_witness :
    ∃ pieces : List (List Byte),
      List.Forall₂ (PieceOf (ascii "name=") (ascii "NEW"))
        (splitLines (ascii "x\nname=old\ny")) pieces ∧
      find_and_append_data (ascii "x\nname=old\ny") (ascii "name=") (ascii "NEW")
        = pieces.flatten ∧
      (NoLF (ascii "name=") → NoLF (ascii "NEW") →
        splitLines (find_and_append_data (ascii "x\nname=old\ny") (ascii "name=") (ascii "NEW"))
          = pieces) :=
  find_and_append_data_pieces (ascii "x\nname=old\ny") (ascii "name=") (ascii "NEW")
    (by decide) (by decide) (by decide)

/-- C1 as stated fails when the marker ends with a line terminator: on the NUL-free file with
the two lines `a=1`, `b=2`, with marker `"1\n"` and insertion text `"X"` (no line terminator),
the new file has three lines, `a=1`, `X`, `b=2`, so its second line does not come from the
second line of the old file. -/
theorem find_and_append_data_line_count_counterexample :
    NulFree (ascii "a=1\nb=2\n") ∧ NulFree (ascii "X") ∧ NoLF (ascii "X") ∧
    (∀ l ∈ splitLines (ascii "a=1\nb=2\n"), l.length ≤ 1023) ∧
    splitLines (ascii "a=1\nb=2\n") = [ascii "a=1\n", ascii "b=2\n"] ∧
    splitLines (find_and_append_data (ascii "a=1\nb=2\n") (ascii "1\n") (ascii "X"))
      = [ascii "a=1\n", ascii "X\n", ascii "b=2\n"] ∧
    (splitLines (find_and_append_data (ascii "a=1\nb=2\n") (ascii "1\n") (ascii "X"))).length
      ≠ (splitLines (ascii "a=1\nb=2\n")).length := by
  decide

/-- C10: for a NUL-free file `F` with lines of any length, a marker `M` and an insertion
text `T`: if no line of `F` contains `M`, the file after `find_and_append_data(F, M, T)` is
`F`, byte for byte. -/
theorem find_and_append_data_of_no_match (F M T : List Byte) (hF : NulFree F)
    (hno : ∀ l ∈ splitLines F, ¬ M <:+: l) : find_and_append_data F M T = F := by
  have hstaged : staged F M T = F := by
    unfold staged
    have hmap : (read_lines 1024 F).map (append_line M T) = read_lines 1024 F := by
      conv_rhs => rw [← List.map_id (read_lines 1024 F)]
      apply List.map_congr_left
      intro c hc
      obtain ⟨l, hl, hcl⟩ := infix_line_of_mem_read_lines (by decide) F c hc
      exact append_line_of_no_match T
        (NulFree.of_isInfix (infix_of_mem_read_lines (by decide) hc) hF)
        (fun h => hno l hl (h.trans hcl))
    rw [hmap, flatten_read_lines (by decide)]
  rw [find_and_append_data_eq_copied, hstaged, copied_of_nulFree hF]

/-- Instance of C10 on the file `x=1`, `y=2` with the marker `name=`. -/
theorem find_and_append_data_of_no_match_witness :
    find_and_append_data (ascii "x=1\ny=2\n") (ascii "name=") (ascii "NEW")
      = ascii "x=1\ny=2\n" :=
  find_and_append_data_of_no_match (ascii "x=1\ny=2\n") (ascii "name=") (ascii "NEW")
    (by decide) (by decide)

/-- C5 (amended): for a NUL-free file `F` whose lines are at most 255 bytes each and a marker
`M`: if some line contains `M`, and `l` is the first such line, then
`find_and_return_inline_data` returns a present value, the text `post` of `l` after the first
occurrence of `M`, one final line terminator removed if there is one; the lines after `l` play
no part. -/
theorem find_and_return_inline_data_first_line (F M : List Byte)
    (before : List (List Byte)) (l : List Byte) (after : List (List Byte))
    (hF : NulFree F) (hlen : ∀ l' ∈ splitLines F, l'.length ≤ 255)
    (hsplit : splitLines F = before ++ l :: after)
    (hbefore : ∀ l' ∈ before, ¬ M <:+: l') (hl : M <:+: l) :
    ∃ pre post, l = pre ++ M ++ post ∧
      (∀ pre' post', l = pre' ++ M ++ post' → pre.length ≤ pre'.length) ∧
      find_and_return_inline_data F M
        = some (if post.getLast? = some LF then post.dropLast else post) := by
  have hnf : ∀ l' ∈ splitLines F, NulFree l' := fun l' h => nulFree_of_mem_splitLines hF h
  obtain ⟨pre, post, h1, h2, h3, h4⟩ := strstr_of_match hl
  refine ⟨pre, post, h1, h2, ?_⟩
  unfold find_and_return_inline_data
  rw [read_lines_eq_splitLines (by decide) F hlen, hsplit,
    find_and_return_inline_data_loop_append, find_and_return_inline_data_loop,
    cstr_of_nulFree (hnf l (by simp [hsplit])), h3]
  · simp only [strip_newline, h4]
  · intro l' hl'
    rw [cstr_of_nulFree (hnf l' (by simp [hsplit, hl'])), strstr_eq_none_iff]
    exact hbefore l' hl'

/-- Instance of C5: on a file whose first line containing `name=` is `name=Alice` the result
is `Alice`, whatever follows. -/
theorem find_and_return_inline_data_first_line_witness :
    find_and_return_inline_data (ascii "x\nname=Alice\nname=Bob\n") (ascii "name=")
      = some (ascii "Alice") ∧
    ∃ pre post, ascii "name=Alice\n" = pre ++ ascii "name=" ++ post ∧
      (∀ pre' post', ascii "name=Alice\n" = pre' ++ ascii "name=" ++ post' →
        pre.length ≤ pre'.length) ∧
      find_and_return_inline_data (ascii "x\nname=Alice\nname=Bob\n") (ascii "name=")
        = some (if post.getLast? = some LF then post.dropLast else post) :=
  ⟨by decide,
    find_and_return_inline_data_first_line (ascii "x\nname=Alice\nname=Bob\n") (ascii "name=")
      [ascii "x\n"] (ascii "name=Alice\n") [ascii "name=Bob\n"]
      (by decide) (by decide) (by decide) (by decide) (by decide)⟩

/-- C5 as stated fails on a file with a NUL byte: the only line of the file, one NUL byte
followed by `name=Alice`, is 12 bytes long and contains `name=`, but `strstr` sees the empty
string in the buffer, and the result is NULL. -/
theorem find_and_return_inline_data_nul_counterexample :
    (∀ l ∈ splitLines (0 :: ascii "name=Alice\n"), l.length ≤ 255) ∧
    splitLines (0 :: ascii "name=Alice\n") = [0 :: ascii "name=Alice\n"] ∧
    ascii "name=" <:+: 0 :: ascii "name=Alice\n" ∧
    find_and_return_inline_data (0 :: ascii "name=Alice\n") (ascii "name=") = none := by
  decide

/-- C8 (amended): for every file and marker `M`, if no line of the file contains `M` then
`find_and_return_inline_data` returns NULL; and for NUL-free files whose lines are at most 255
bytes each the result is NULL if and only if no line contains `M`. -/
theorem find_and_return_inline_data_eq_none (F M : List Byte) :
    ((∀ l ∈ splitLines F, ¬ M <:+: l) → find_and_return_inline_data F M = none) ∧
    (NulFree F → (∀ l ∈ splitLines F, l.length ≤ 255) →
      (find_and_return_inline_data F M = none ↔ ∀ l ∈ splitLines F, ¬ M <:+: l)) := by
  constructor
  · intro hno
    unfold find_and_return_inline_data
    rw [find_and_return_inline_data_loop_eq_none_iff]
    intro c hc
    rw [strstr_eq_none_iff]
    obtain ⟨l, hl, hcl⟩ := infix_line_of_mem_read_lines (by decide) F c hc
    exact fun h => hno l hl ((h.trans (cstr_isPrefix c).isInfix).trans hcl)
  · intro hF hlen
    unfold find_and_return_inline_data
    rw [read_lines_eq_splitLines (by decide) F hlen,
      find_and_return_inline_data_loop_eq_none_iff]
    apply forall₂_congr
    intro l hl
    rw [cstr_of_nulFree (nulFree_of_mem_splitLines hF hl), strstr_eq_none_iff]

/-- C8 as stated fails on a file with a NUL byte: the result is NULL although the only line
of the file, one NUL byte followed by `name=Alice`, contains `name=`. -/
theorem find_and_return_inline_data_eq_none_counterexample :
    (∀ l ∈ splitLines (0 :: ascii "name=Alice\n"), l.length ≤ 255) ∧
    find_and_return_inline_data (0 :: ascii "name=Alice\n") (ascii "name=") = none ∧
    ¬ (∀ l ∈ splitLines (0 :: ascii "name=Alice\n"), ¬ ascii "name=" <:+: l) := by
  decide

/-- Instance of C8: no line of the file `x=1`, `y=2` contains `name=`, and the result is
NULL; the file is NUL-free with short lines, and the equivalence holds on it. -/
theorem find_and_return_inline_data_eq_none_witness :
    find_and_return_inline_data (ascii "x=1\ny=2\n") (ascii "name=") = none ∧
    (find_and_return_inline_data (ascii "x=1\ny=2\n") (ascii "name=") = none ↔
      ∀ l ∈ splitLines (ascii "x=1\ny=2\n"), ¬ ascii "name=" <:+: l) :=
  ⟨(find_and_return_inline_data_eq_none (ascii "x=1\ny=2\n") (ascii "name=")).1 (by decide),
    (find_and_return_inline_data_eq_none (ascii "x=1\ny=2\n") (ascii "name=")).2
      (by decide) (by decide)⟩

/-- C4 (amended): for a NUL-free file `F` whose lines are at most 1023 bytes each and markers
`from_`, `to_`: if `l` is the first line that contains `from_` with `to_` at or after the end
of the first occurrence of `from_`, then `return_inline_data_from_to` returns a present value,
the text `mid` of `l` between the end of the first occurrence of `from_` and the start of the
first occurrence of `to_` after it (the empty string when the two are adjacent). -/
theorem return_inline_data_from_to_first_line (F from_ to_ : List Byte)
    (before : List (List Byte)) (l : List Byte) (after : List (List Byte))
    (hF : NulFree F) (hlen : ∀ l' ∈ splitLines F, l'.length ≤ 1023)
    (hsplit : splitLines F = before ++ l :: after)
    (hbefore : ∀ l' ∈ before, ¬ HasInlineRangeAtFirst from_ to_ l')
    (hl : HasInlineRangeAtFirst from_ to_ l) :
    ∃ pre mid post, l = pre ++ from_ ++ (mid ++ to_ ++ post) ∧
      (∀ pre' rest', l = pre' ++ from_ ++ rest' → pre.length ≤ pre'.length) ∧
      (∀ mid' post', mid ++ to_ ++ post = mid' ++ to_ ++ post' → mid.length ≤ mid'.length) ∧
      return_inline_data_from_to F from_ to_ = some mid := by
  have hnf : ∀ l' ∈ splitLines F, NulFree l' := fun l' h => nulFree_of_mem_splitLines hF h
  have hskip : ∀ (L : List (List Byte)), (∀ l' ∈ L, NulFree l') →
      (∀ l' ∈ L, ¬ HasInlineRangeAtFirst from_ to_ l') → ∀ rest,
      return_inline_data_from_to_loop from_ to_ (L ++ rest)
        = return_inline_data_from_to_loop from_ to_ rest := by
    intro L
    induction L with
    | nil => intros; rfl
    | cons a L ih =>
      intro h1 h2 rest
      rw [List.cons_append, return_inline_data_from_to_loop_skip
        (h1 a (List.mem_cons_self a L))
        (fun h => h2 a (List.mem_cons_self a L) ((hasInlineRange_iff_atFirst _ _ _).mp h))]
      exact ih (fun l' hl' => h1 l' (List.mem_cons_of_mem a hl'))
        (fun l' hl' => h2 l' (List.mem_cons_of_mem a hl')) rest
  obtain ⟨pre, mid, post, h1, h2, h3, h4⟩ := return_inline_data_from_to_loop_hit
    (hnf l (by simp [hsplit])) ((hasInlineRange_iff_atFirst _ _ _).mpr hl) after
  refine ⟨pre, mid, post, h1, h2, h3, ?_⟩
  unfold return_inline_data_from_to
  rw [read_lines_eq_splitLines (by decide) F hlen, hsplit,
    hskip before (fun l' hl' => hnf l' (by simp [hsplit, hl'])) hbefore, h4]

/-- Instance of C4: on the line `list=[1,2,3]` with the markers `list=[` and `]` the result
is `1,2,3`. -/
theorem return_inline_data_from_to_first_line_witness :
    return_inline_data_from_to (ascii "list=[1,2,3]") (ascii "list=[") (ascii "]")
      = some (ascii "1,2,3") ∧
    ∃ pre mid post, ascii "list=[1,2,3]" = pre ++ ascii "list=[" ++ (mid ++ ascii "]" ++ post) ∧
      (∀ pre' rest', ascii "list=[1,2,3]" = pre' ++ ascii "list=[" ++ rest' →
        pre.length ≤ pre'.length) ∧
      (∀ mid' post', mid ++ ascii "]" ++ post = mid' ++ ascii "]" ++ post' →
        mid.length ≤ mid'.length) ∧
      return_inline_data_from_to (ascii "list=[1,2,3]") (ascii "list=[") (ascii "]")
        = some mid :=
  ⟨by decide,
    return_inline_data_from_to_first_line (ascii "list=[1,2,3]") (ascii "list=[") (ascii "]")
      [] (ascii "list=[1,2,3]") [] (by decide) (by decide) (by decide)
      (fun _ h => absurd h (List.not_mem_nil _))
      ⟨[], ascii "1,2,3]", by decide, fun _ _ _ => Nat.zero_le _, by decide⟩⟩

/-- C4 as stated fails on a file with a NUL byte: the only line of the file, one NUL byte
followed by `list=[1,2,3]`, contains `list=[` with `]` after it, but `strstr` sees the empty
string in the buffer, and the result is NULL. -/
theorem return_inline_data_from_to_nul_counterexample :
    (∀ l ∈ splitLines (0 :: ascii "list=[1,2,3]"), l.length ≤ 1023) ∧
    splitLines (0 :: ascii "list=[1,2,3]") = [0 :: ascii "list=[1,2,3]"] ∧
    HasInlineRangeAtFirst (ascii "list=[") (ascii "]") (0 :: ascii "list=[1,2,3]") ∧
    return_inline_data_from_to (0 :: ascii "list=[1,2,3]") (ascii "list=[") (ascii "]")
      = none := by
  refine ⟨by decide, by decide, ⟨[0], ascii "1,2,3]", by decide, ?_, by decide⟩, by decide⟩
  intro pre' rest' h
  cases pre' with
  | nil =>
    rw [show ascii "list=[" = 108 :: ascii "ist=[" from by decide] at h
    simp at h
  | cons a pre' => simp

/-- C7 (amended): for a NUL-free file `F` whose lines are at most 1023 bytes each and markers
`from_`, `to_`: `return_inline_data_from_to` returns NULL if and only if no line contains
`from_` with `to_` at or after the end of `from_` on that line. A line with `from_` and no
`to_` after it is passed over, and `to_` on a later line does not complete it. -/
theorem return_inline_data_from_to_eq_none_iff (F from_ to_ : List Byte)
    (hF : NulFree F) (hlen : ∀ l ∈ splitLines F, l.length ≤ 1023) :
    return_inline_data_from_to F from_ to_ = none
      ↔ ∀ l ∈ splitLines F, ¬ HasInlineRange from_ to_ l := by
  unfold return_inline_data_from_to
  rw [read_lines_eq_splitLines (by decide) F hlen]
  exact return_inline_data_from_to_loop_eq_none_iff
    (fun l hl => nulFree_of_mem_splitLines hF hl)

/-- Instance of C7: on the lines `list=[1,2` and `3]` with the markers `list=[` and `]` the
result is NULL, and no line has `]` after `list=[`. -/
theorem return_inline_data_from_to_eq_none_iff_witness :
    return_inline_data_from_to (ascii "list=[1,2\n3]\n") (ascii "list=[") (ascii "]") = none ∧
    ∀ l ∈ splitLines (ascii "list=[1,2\n3]\n"),
      ¬ HasInlineRange (ascii "list=[") (ascii "]") l :=
  ⟨by decide,
    (return_inline_data_from_to_eq_none_iff (ascii "list=[1,2\n3]\n") (ascii "list=[")
      (ascii "]") (by decide) (by decide)).mp (by decide)⟩

/-- C7 as stated fails on a file with a NUL byte: the result is NULL although the only line
of the file, one NUL byte followed by `list=[1,2,3]`, contains `list=[` with `]` after it. -/
theorem return_inline_data_from_to_eq_none_counterexample :
    (∀ l ∈ splitLines (0 :: ascii "list=[1,2,3]"), l.length ≤ 1023) ∧
    return_inline_data_from_to (0 :: ascii "list=[1,2,3]") (ascii "list=[") (ascii "]")
      = none ∧
    ¬ (∀ l ∈ splitLines (0 :: ascii "list=[1,2,3]"),
        ¬ HasInlineRange (ascii "list=[") (ascii "]") l) := by
  refine ⟨by decide, by decide, ?_⟩
  intro h
  exact h (0 :: ascii "list=[1,2,3]") (by decide) ⟨[0], ascii "1,2,3]", by decide, by decide⟩

/-- C6 (amended): Append-After-Match is idempotent on text files. For a NUL-free file `F`,
a marker `M` and an insertion text `T` without line terminator, the lines of the file being at
most 1023 bytes each before and after the first call: a second call
`find_and_append_data(F, M, T)` finds `M` at the same place in each rewritten line, drops the
`T` written by the first call with the rest of the line and writes `T` again, so that after
the second call, as after the first, a line that contained `M` is its prefix up to and
including the first occurrence of `M`, then `T` once, then a line terminator. -/
theorem find_and_append_data_twice (F M T : List Byte) (hF : NulFree F) (hT : NulFree T)
    (hM : NoLF M) (hT' : NoLF T) (hlen : ∀ l ∈ splitLines F, l.length ≤ 1023)
    (hlen' : ∀ l ∈ splitLines (find_and_append_data F M T), l.length ≤ 1023) :
    ∃ pieces : List (List Byte),
      List.Forall₂ (PieceOf M T) (splitLines F) pieces ∧
      find_and_append_data F M T = pieces.flatten ∧
      find_and_append_data (find_and_append_data F M T) M T = pieces.flatten := by
  refine ⟨(splitLines F).map (append_line M T), ?_, find_and_append_data_eq_map F M hT hlen, ?_⟩
  · rw [List.forall₂_map_right_iff, List.forall₂_same]
    exact fun l hl => pieceOf_append_line M T (nulFree_of_mem_splitLines hF hl)
  · rw [find_and_append_data_eq_map _ M hT hlen',
      splitLines_find_and_append_data hF hT hlen hM hT', List.map_map]
    congr 1
    apply List.map_congr_left
    intro l hl
    exact append_line_append_line M (nulFree_of_mem_splitLines hF hl) hT

/-- Instance of C6 (amended) on the file `x`, `name=old`, `y`. -/
theorem find_and_append_data_twice_witness :
    ∃ pieces : List (List Byte),
      List.Forall₂ (PieceOf (ascii "name=") (ascii "NEW"))
        (splitLines (ascii "x\nname=old\ny")) pieces ∧
      find_and_append_data (ascii "x\nname=old\ny") (ascii "name=") (ascii "NEW")
        = pieces.flatten ∧
      find_and_append_data
          (find_and_append_data (ascii "x\nname=old\ny") (ascii "name=") (ascii "NEW"))
          (ascii "name=") (ascii "NEW")
        = pieces.flatten :=
  find_and_append_data_twice (ascii "x\nname=old\ny") (ascii "name=") (ascii "NEW")
    (by decide) (by decide) (by decide) (by decide) (by decide) (by decide)

/-- C6 as stated fails: on the file with the one line `name=old`, with marker `name=` and the
non-empty insertion text `NEW`, the first call gives `name=NEW`, the marker still matches, and
the second call gives `name=NEW` again, not `name=NEWNEW`: the two files are the same. -/
theorem find_and_append_data_twice_counterexample :
    ascii "name=" <:+: ascii "name=old\n" ∧
    find_and_append_data (ascii "name=old\n") (ascii "name=") (ascii "NEW")
      = ascii "name=NEW\n" ∧
    ascii "name=" <:+: ascii "name=NEW\n" ∧
    find_and_append_data
        (find_and_append_data (ascii "name=old\n") (ascii "name=") (ascii "NEW"))
        (ascii "name=") (ascii "NEW")
      = find_and_append_data (ascii "name=old\n") (ascii "name=") (ascii "NEW") ∧
    find_and_append_data
        (find_and_append_data (ascii "name=old\n") (ascii "name=") (ascii "NEW"))
        (ascii "name=") (ascii "NEW")
      ≠ ascii "name=NEWNEW\n" := by
  decide

/-- C2 (amended): for a NUL-free file `F` whose lines are at most 1023 bytes each and markers
`from_`, `to_`: if `lf` is the first line containing `from_`, `lt` the first line after it
containing `to_`, and the lines `mid` between the two are at least one, then
`return_lines_from_to` returns a present value, the lines `mid` put end to end as they are,
less the line terminator that ends the last of them; `lf`, `lt` and the lines after `lt` are
left out. -/
theorem return_lines_from_to_range (F from_ to_ : List Byte)
    (before : List (List Byte)) (lf : List Byte) (mid : List (List Byte)) (lt : List Byte)
    (after : List (List Byte))
    (hF : NulFree F) (hlen : ∀ l ∈ splitLines F, l.length ≤ 1023)
    (hsplit : splitLines F = before ++ lf :: (mid ++ lt :: after))
    (hbefore : ∀ l ∈ before, ¬ from_ <:+: l) (hfrom : from_ <:+: lf)
    (hmid : ∀ l ∈ mid, ¬ to_ <:+: l) (hto : to_ <:+: lt) (hne : mid ≠ []) :
    ∃ r, mid.flatten = r ++ [LF] ∧ return_lines_from_to F from_ to_ = some r := by
  have hnf : ∀ l ∈ splitLines F, NulFree l := fun l h => nulFree_of_mem_splitLines hF h
  have hcs : ∀ l ∈ splitLines F, cstr l = l := fun l h => cstr_of_nulFree (hnf l h)
  -- the last recorded line ends with a line terminator
  obtain ⟨mid', m, rfl⟩ : ∃ mid' m, mid = mid' ++ [m] :=
    ⟨mid.dropLast, mid.getLast hne, (List.dropLast_append_getLast hne).symm⟩
  have hws : WellSplit ((before ++ lf :: mid') ++ m :: (lt :: after)) := by
    have := wellSplit_splitLines F
    rw [hsplit] at this
    simpa using this
  obtain ⟨hm1, hm2⟩ := terminated_of_wellSplit_append hws (by simp)
  have hm : m = m.dropLast ++ [LF] := by
    have h := (List.dropLast_append_getLast hm1).symm
    rw [List.getLast?_eq_getLast m hm1] at hm2
    rw [Option.some.inj hm2] at h
    exact h
  have hin : ∀ l ∈ mid' ++ [m], l ∈ splitLines F := by
    intro l hl
    rw [hsplit]
    exact List.mem_append_right _ (List.mem_cons_of_mem _ (List.mem_append_left _ hl))
  refine ⟨mid'.flatten ++ m.dropLast, ?_, ?_⟩
  · rw [List.flatten_append, List.flatten_singleton, List.append_assoc, ← hm]
  · unfold return_lines_from_to
    rw [read_lines_eq_splitLines (by decide) F hlen, hsplit,
      return_lines_from_to_loop_seek, return_lines_from_to_loop]
    · have hf : (strstr (cstr lf) from_).isSome = true := by
        rw [hcs lf (by simp [hsplit]), strstr_isSome_iff]; exact hfrom
      have ht : (strstr (cstr lt) to_).isSome = true := by
        rw [hcs lt (by simp [hsplit]), strstr_isSome_iff]; exact hto
      have hmap : (mid' ++ [m]).map cstr = mid' ++ [m] := by
        conv_rhs => rw [← List.map_id (mid' ++ [m])]
        apply List.map_congr_left
        intro l hl
        exact hcs l (hin l hl)
      rw [if_pos hf, return_lines_from_to_loop_record, return_lines_from_to_loop, if_pos ht,
        if_neg hne, hmap]
      · simp only [Option.getD_none, List.nil_append, Option.map_some', strip_newline,
          List.flatten_append, List.flatten_singleton]
        conv_lhs => rw [hm]
        simp [← List.append_assoc]
      · intro l hl
        rw [hcs l (hin l hl), strstr_eq_none_iff]
        exact hmid l hl
    · intro l hl
      rw [hcs l (by simp [hsplit, hl]), strstr_eq_none_iff]
      exact hbefore l hl

/-- Instance of C2: on the lines `values={`, `a`, `b`, `}=values` with the markers `values={`
and `}=values` the result is `a`, line terminator, `b`. -/
theorem return_lines_from_to_range_witness :
    return_lines_from_to (ascii "values=\x7b\na\nb\n\x7d=values\n") (ascii "values=\x7b")
      (ascii "\x7d=values") = some (ascii "a\nb") ∧
    ∃ r, [ascii "a\n", ascii "b\n"].flatten = r ++ [LF] ∧
      return_lines_from_to (ascii "values=\x7b\na\nb\n\x7d=values\n") (ascii "values=\x7b")
        (ascii "\x7d=values") = some r :=
  ⟨by decide,
    return_lines_from_to_range (ascii "values=\x7b\na\nb\n\x7d=values\n") (ascii "values=\x7b")
      (ascii "\x7d=values") [] (ascii "values=\x7b\n") [ascii "a\n", ascii "b\n"]
      (ascii "\x7d=values\n") []
      (by decide) (by decide) (by decide) (by decide) (by decide) (by decide) (by decide)
      (by decide)⟩

/-- C2 as stated fails on a file with a NUL byte: on the lines `values={`, `a` NUL `b`,
`}=values` the result is `a`, what the C string in the buffer holds, not the whole line
between the two marker lines. -/
theorem return_lines_from_to_nul_counterexample :
    (∀ l ∈ splitLines (ascii "values=\x7b\na" ++ 0 :: ascii "b\n\x7d=values\n"), l.length ≤ 1023) ∧
    splitLines (ascii "values=\x7b\na" ++ 0 :: ascii "b\n\x7d=values\n")
      = [ascii "values=\x7b\n", ascii "a" ++ 0 :: ascii "b\n", ascii "\x7d=values\n"] ∧
    return_lines_from_to (ascii "values=\x7b\na" ++ 0 :: ascii "b\n\x7d=values\n")
      (ascii "values=\x7b") (ascii "\x7d=values") = some (ascii "a") ∧
    return_lines_from_to (ascii "values=\x7b\na" ++ 0 :: ascii "b\n\x7d=values\n")
      (ascii "values=\x7b") (ascii "\x7d=values") ≠ some (ascii "a" ++ 0 :: ascii "b") := by
  decide

/-- C3 (code): on the lines `values={`, `a`, `b`, with no line containing `}=values` after
the line containing `values={`, `return_lines_from_to` does not return NULL: it returns the
lines recorded up to end of file, `a`, line terminator, `b`. -/
theorem return_lines_from_to_unterminated :
    ascii "values=\x7b" <:+: ascii "values=\x7b\n" ∧
    splitLines (ascii "values=\x7b\na\nb\n") = [ascii "values=\x7b\n", ascii "a\n", ascii "b\n"] ∧
    (∀ l ∈ [ascii "a\n", ascii "b\n"], ¬ ascii "\x7d=values" <:+: l) ∧
    return_lines_from_to (ascii "values=\x7b\na\nb\n") (ascii "values=\x7b") (ascii "\x7d=values")
      = some (ascii "a\nb") := by
  decide

/-- C9 (code): on the lines `begin end`, `x`, `end`, where the first line containing `begin`
also contains `end`, `return_lines_from_to` does not return NULL: the marker `end` is not
looked for on the line of `begin`, and the result is `x`. -/
theorem return_lines_from_to_same_line :
    splitLines (ascii "begin end\nx\nend\n") = [ascii "begin end\n", ascii "x\n", ascii "end\n"] ∧
    ascii "begin" <:+: ascii "begin end\n" ∧ ascii "end" <:+: ascii "begin end\n" ∧
    return_lines_from_to (ascii "begin end\nx\nend\n") (ascii "begin") (ascii "end")
      = some (ascii "x") := by
  decide

/-! ## The shape of a buffer -/

theorem fgets_take_length_le (room : Nat) (s : List Byte) : (fgets_take room s).length ≤ room := by
  induction s generalizing room with
  | nil => cases room <;> simp [fgets_take]
  | cons c s ih =>
    cases room with
    | zero => simp [fgets_take]
    | succ room =>
      by_cases hc : c = LF
      · simp [fgets_take, hc]
      · simpa [fgets_take, hc] using ih room

theorem terminatorLast_fgets_take (room : Nat) (s : List Byte) :
    TerminatorLast (fgets_take room s) := by
  induction s generalizing room with
  | nil =>
    intro a b h
    cases room <;> simp [fgets_take] at h
  | cons c s ih =>
    cases room with
    | zero => intro a b h; simp [fgets_take] at h
    | succ room =>
      intro a b h
      by_cases hc : c = LF
      · simp only [fgets_take, hc, if_true] at h
        cases a with
        | nil => simp at h; exact h
        | cons x a => simp at h
      · simp only [fgets_take, hc, if_false] at h
        cases a with
        | nil => simp at h; exact absurd h.1 hc
        | cons x a =>
          simp only [List.cons_append, List.cons.injEq] at h
          exact ih room a b h.2

theorem terminatorLast_of_isInfix {l l' : List Byte} (h : l' <:+: l) (hl : TerminatorLast l) :
    TerminatorLast l' := by
  obtain ⟨s, t, rfl⟩ := h
  intro a b hab
  have := hl (s ++ a) (b ++ t) (by rw [hab]; simp)
  exact (List.append_eq_nil.mp this).1

theorem noLF_of_terminatorLast_append {l t : List Byte} (h : TerminatorLast (l ++ t))
    (ht : t ≠ []) : NoLF l := by
  intro b hb hLF
  subst hLF
  obtain ⟨a, c, rfl⟩ := List.append_of_mem hb
  have := h a (c ++ t) (by simp)
  exact ht (List.append_eq_nil.mp this).2

theorem noLF_strip_newline {found : List Byte} (h : TerminatorLast found) :
    NoLF (strip_newline found) := by
  unfold strip_newline
  by_cases hlast : found.getLast? = some LF
  · rw [if_pos hlast]
    obtain ⟨d, hd⟩ := List.getLast?_eq_some_iff.mp hlast
    subst hd
    rw [List.dropLast_concat]
    exact noLF_of_terminatorLast_append h (by simp)
  · rw [if_neg hlast]
    intro b hb hLF
    subst hLF
    obtain ⟨a, c, rfl⟩ := List.append_of_mem hb
    have hc := h a c rfl
    subst hc
    exact hlast (by simp)

theorem length_le_of_mem_read_lines {size : Nat} (hsize : 2 ≤ size) (s : List Byte) :
    ∀ c ∈ read_lines size s, c.length ≤ size - 1 := by
  induction s using read_lines_induction hsize with
  | hnil => intro c hc; simp [read_lines_nil] at hc
  | hcons s hs ih =>
    intro c hc
    rw [read_lines_cons hsize hs] at hc
    rcases List.mem_cons.mp hc with rfl | hc
    · exact fgets_take_length_le _ _
    · exact ih c hc

theorem terminatorLast_of_mem_read_lines {size : Nat} (hsize : 2 ≤ size) (s : List Byte) :
    ∀ c ∈ read_lines size s, TerminatorLast c := by
  induction s using read_lines_induction hsize with
  | hnil => intro c hc; simp [read_lines_nil] at hc
  | hcons s hs ih =>
    intro c hc
    rw [read_lines_cons hsize hs] at hc
    rcases List.mem_cons.mp hc with rfl | hc
    · exact terminatorLast_fgets_take _ _
    · exact ih c hc

/-- A present result of the loop of `find_and_return_inline_data` comes from one buffer. -/
theorem find_and_return_inline_data_loop_eq_some {M : List Byte} {L : List (List Byte)}
    {r : List Byte} (h : find_and_return_inline_data_loop M L = some r) :
    ∃ c ∈ L, ∃ p, strstr (cstr c) M = some p ∧
      r = strip_newline ((cstr c).drop (p + M.length)) := by
  induction L with
  | nil => simp [find_and_return_inline_data_loop] at h
  | cons l ls ih =>
    unfold find_and_return_inline_data_loop at h
    cases hp : strstr (cstr l) M with
    | none =>
      rw [hp] at h
      obtain ⟨c, hc, hr⟩ := ih h
      exact ⟨c, List.mem_cons_of_mem l hc, hr⟩
    | some p =>
      rw [hp] at h
      exact ⟨l, List.mem_cons_self l ls, p, hp, (Option.some.inj h).symm⟩

/-- A present result of the loop of `return_inline_data_from_to` comes from one buffer. -/
theorem return_inline_data_from_to_loop_eq_some {from_ to_ : List Byte}
    {L : List (List Byte)} {r : List Byte}
    (h : return_inline_data_from_to_loop from_ to_ L = some r) :
    ∃ c ∈ L, ∃ p e, strstr (cstr c) from_ = some p ∧
      strstr ((cstr c).drop (p + from_.length)) to_ = some e ∧
      r = ((cstr c).drop (p + from_.length)).take e := by
  induction L with
  | nil => simp [return_inline_data_from_to_loop] at h
  | cons l ls ih =>
    unfold return_inline_data_from_to_loop at h
    cases hp : strstr (cstr l) from_ with
    | none =>
      rw [hp] at h
      obtain ⟨c, hc, hr⟩ := ih h
      exact ⟨c, List.mem_cons_of_mem l hc, hr⟩
    | some p =>
      rw [hp] at h
      simp only at h
      cases he : strstr ((cstr l).drop (p + from_.length)) to_ with
      | none =>
        rw [he] at h
        obtain ⟨c, hc, hr⟩ := ih h
        exact ⟨c, List.mem_cons_of_mem l hc, hr⟩
      | some e =>
        rw [he] at h
        exact ⟨l, List.mem_cons_self l ls, p, e, hp, he, (Option.some.inj h).symm⟩

/-! ## Claims on the empty file, the commit step and the shape of results -/

/-- C12: on an empty file, for all markers and insertion texts, `find_and_return_inline_data`,
`return_inline_data_from_to` and `return_lines_from_to` return NULL, and
`find_and_append_data` leaves the file empty. -/
theorem empty_file_results (M T from_ to_ : List Byte) :
    find_and_return_inline_data [] M = none ∧
    return_inline_data_from_to [] from_ to_ = none ∧
    return_lines_from_to [] from_ to_ = none ∧
    find_and_append_data [] M T = [] :=
  ⟨rfl, rfl, rfl, rfl⟩

/-- C13: the commit step of `find_and_append_data` replaces the content of the file by the
staged content. For a NUL-free staged byte string `S`, whatever the length of its lines, and
any prior content `old`: reading `S` back in buffers of at most 1023 bytes, writing the
buffers from offset 0 and truncating the file at the final write position leaves exactly `S`,
also when `S` is shorter than `old`. -/
theorem commit_replaces_content (old S : List Byte) (hS : NulFree S) :
    (∀ c ∈ read_lines 1024 S, c.length ≤ 1023) ∧
    copied S = S ∧
    ftruncate (overwrite old (copied S)) (copied S).length = S := by
  refine ⟨length_le_of_mem_read_lines (by decide) S, copied_of_nulFree hS, ?_⟩
  rw [ftruncate_overwrite, copied_of_nulFree hS]

/-- Instance of C13: the staged content `ab` replaces the longer content `x=1`, `y=2`. -/
theorem commit_replaces_content_witness :
    (∀ c ∈ read_lines 1024 (ascii "ab\n"), c.length ≤ 1023) ∧
    copied (ascii "ab\n") = ascii "ab\n" ∧
    ftruncate (overwrite (ascii "x=1\ny=2\n") (copied (ascii "ab\n")))
      (copied (ascii "ab\n")).length = ascii "ab\n" :=
  commit_replaces_content (ascii "x=1\ny=2\n") (ascii "ab\n") (by decide)

/-- C17: for every file and all markers, a present result of `find_and_return_inline_data`
or of `return_inline_data_from_to` holds no line terminator, and a present result of
`return_inline_data_from_to` with a non-empty `to_` does not contain `to_`. -/
theorem inline_results_within_line (F M from_ to_ r : List Byte) :
    (find_and_return_inline_data F M = some r → NoLF r) ∧
    (return_inline_data_from_to F from_ to_ = some r →
      NoLF r ∧ (to_ ≠ [] → ¬ to_ <:+: r)) := by
  constructor
  · intro h
    obtain ⟨c, hc, p, _, rfl⟩ := find_and_return_inline_data_loop_eq_some h
    apply noLF_strip_newline
    exact terminatorLast_of_isInfix
      ((List.drop_suffix _ _).isInfix.trans (cstr_isPrefix c).isInfix)
      (terminatorLast_of_mem_read_lines (by decide) F c hc)
  · intro h
    obtain ⟨c, hc, p, e, _, he, rfl⟩ := return_inline_data_from_to_loop_eq_some h
    have hstart : TerminatorLast ((cstr c).drop (p + from_.length)) :=
      terminatorLast_of_isInfix
        ((List.drop_suffix _ _).isInfix.trans (cstr_isPrefix c).isInfix)
        (terminatorLast_of_mem_read_lines (by decide) F c hc)
    obtain ⟨h1, h2⟩ := strstr_eq_some he
    generalize (cstr c).drop (p + from_.length) = start at hstart h1 h2
    constructor
    · by_cases hto : to_ = []
      · have : e ≤ 0 := h2 [] start (by simp [hto])
        have he0 : e = 0 := by omega
        rw [he0, List.take_zero]
        intro b hb; simp at hb
      · rw [h1, List.append_assoc] at hstart
        exact noLF_of_terminatorLast_append hstart (by simp [hto])
    · intro hto hinf
      obtain ⟨a, b, hab⟩ := hinf
      have hle : e ≤ a.length := h2 a (b ++ start.drop e) (by
        rw [List.append_assoc, ← List.append_assoc a, ← List.append_assoc, hab,
          List.take_append_drop])
      have hlen := congrArg List.length hab
      simp only [List.length_append, List.length_take] at hlen
      have : 0 < to_.length := List.length_pos.mpr hto
      omega

/-- Instance of C17 on the lines `name=Alice` and `list=[1,2,3]`. -/
theorem inline_results_within_line_witness :
    NoLF (ascii "Alice") ∧
    (NoLF (ascii "1,2,3") ∧ (ascii "]" ≠ [] → ¬ ascii "]" <:+: ascii "1,2,3")) :=
  ⟨(inline_results_within_line (ascii "name=Alice\nlist=[1,2,3]\n") (ascii "name=")
      (ascii "list=[") (ascii "]") (ascii "Alice")).1 (by decide),
    (inline_results_within_line (ascii "name=Alice\nlist=[1,2,3]\n") (ascii "name=")
      (ascii "list=[") (ascii "]") (ascii "1,2,3")).2 (by decide)⟩

/-- C18: for every file and marker `M`, a present result `r` of `find_and_return_inline_data`
is at most `255 - |M|` bytes long: it is the text after `M` in the C string of one buffer of
at most 255 bytes, a final line terminator removed, so what the line holds beyond that buffer
is not returned. -/
theorem find_and_return_inline_data_length (F M r : List Byte)
    (h : find_and_return_inline_data F M = some r) :
    r.length + M.length ≤ 255 ∧
    ∃ c ∈ read_lines 256 F, c.length ≤ 255 ∧
      ∃ pre post, cstr c = pre ++ M ++ post ∧ r = strip_newline post := by
  obtain ⟨c, hc, p, hp, rfl⟩ := find_and_return_inline_data_loop_eq_some h
  have hlen : c.length ≤ 255 := length_le_of_mem_read_lines (by decide) F c hc
  have hcs : (cstr c).length ≤ c.length := (cstr_isPrefix c).length_le
  obtain ⟨h1, _⟩ := strstr_eq_some hp
  have hstrip : ∀ l : List Byte, (strip_newline l).length ≤ l.length := by
    intro l
    unfold strip_newline
    split
    · simp
    · exact Nat.le_refl _
  refine ⟨?_, c, hc, hlen, (cstr c).take p, (cstr c).drop (p + M.length), h1, rfl⟩
  have h2 := congrArg List.length h1
  simp only [List.length_append] at h2
  have h3 := hstrip ((cstr c).drop (p + M.length))
  omega

set_option maxRecDepth 100000 in
/-- Instance of C18: on a line made of `k=`, 300 bytes `a` and a line terminator, the result
for the marker `k=` is the 253 bytes `a` of the first buffer. -/
theorem find_and_return_inline_data_length_witness :
    find_and_return_inline_data (ascii "k=" ++ List.replicate 300 97 ++ [LF]) (ascii "k=")
      = some (List.replicate 253 97) ∧
    (List.replicate 253 97).length + (ascii "k=").length ≤ 255 ∧
    ∃ c ∈ read_lines 256 (ascii "k=" ++ List.replicate 300 97 ++ [LF]), c.length ≤ 255 ∧
      ∃ pre post, cstr c = pre ++ ascii "k=" ++ post ∧
        List.replicate 253 97 = strip_newline post :=
  ⟨by decide,
    find_and_return_inline_data_length (ascii "k=" ++ List.replicate 300 97 ++ [LF])
      (ascii "k=") (List.replicate 253 97) (by decide)⟩

/-! ## Claims on repeated and combined calls -/

/-- In a rewritten line the text after the first occurrence of the marker is the insertion
text and a line terminator. -/
theorem drop_append_line_of_match {M T l : List Byte} (hl : NulFree l) (hT : NulFree T)
    (h : M <:+: l) :
    ∃ p, strstr (cstr (append_line M T l)) M = some p ∧
      (cstr (append_line M T l)).drop (p + M.length) = T ++ [LF] := by
  have hnf : NulFree (append_line M T l) := nulFree_append_line hT
  have hidem := append_line_append_line M hl hT
  obtain ⟨pre, post, _, _, ha⟩ := append_line_of_match T hl h
  have hinf : M <:+: append_line M T l := ⟨pre, T ++ [LF], by rw [ha]; simp⟩
  rw [cstr_of_nulFree hnf]
  obtain ⟨pre₂, post₂, _, _, hp, _⟩ := strstr_of_match hinf
  refine ⟨pre₂.length, hp, ?_⟩
  generalize append_line M T l = fl at hnf hidem hp
  unfold append_line at hidem
  rw [cstr_of_nulFree hnf, hp] at hidem
  simp only at hidem
  have hsplit := List.take_append_drop (pre₂.length + M.length) fl
  rw [List.append_assoc] at hidem
  exact List.append_cancel_left (hsplit.trans hidem.symm)

theorem strip_newline_append_LF (T : List Byte) : strip_newline (T ++ [LF]) = T := by
  simp [strip_newline]

theorem find_and_return_inline_data_loop_map_append_line {M T : List Byte} (hT : NulFree T) :
    ∀ L : List (List Byte), (∀ l ∈ L, NulFree l) → (∃ l ∈ L, M <:+: l) →
      find_and_return_inline_data_loop M (L.map (append_line M T)) = some T := by
  intro L
  induction L with
  | nil => rintro _ ⟨l, hl, _⟩; simp at hl
  | cons l ls ih =>
    intro hnf hex
    have hl : NulFree l := hnf l (List.mem_cons_self l ls)
    rw [List.map_cons, find_and_return_inline_data_loop]
    by_cases h : M <:+: l
    · obtain ⟨p, hp, hdrop⟩ := drop_append_line_of_match hl hT h
      rw [hp]
      simp only [hdrop, strip_newline_append_LF]
    · rw [append_line_of_no_match T hl h, cstr_of_nulFree hl,
        (strstr_eq_none_iff l M).mpr h]
      apply ih (fun l' hl' => hnf l' (List.mem_cons_of_mem l hl'))
      obtain ⟨l', hl', hM⟩ := hex
      rcases List.mem_cons.mp hl' with rfl | hl'
      · exact absurd hM h
      · exact ⟨l', hl', hM⟩

/-- C14 (amended): write then read. For a NUL-free file `F`, a marker `M` and an insertion
text `T` (C strings), neither holding a line terminator, such that some line of `F` contains
`M` and the lines of the file are at most 255 bytes each before and after the rewrite:
`find_and_append_data(F, M, T)` followed by `find_and_return_inline_data(F, M)` returns a
present value equal to `T`. -/
theorem find_and_return_after_append (F M T : List Byte) (hF : NulFree F) (hT : NulFree T)
    (hM : NoLF M) (hT' : NoLF T) (hlen : ∀ l ∈ splitLines F, l.length ≤ 255)
    (hlen' : ∀ l ∈ splitLines (find_and_append_data F M T), l.length ≤ 255)
    (hex : ∃ l ∈ splitLines F, M <:+: l) :
    find_and_return_inline_data (find_and_append_data F M T) M = some T := by
  have hlen₁ : ∀ l ∈ splitLines F, l.length ≤ 1023 := fun l hl =>
    Nat.le_trans (hlen l hl) (by decide)
  unfold find_and_return_inline_data
  rw [read_lines_eq_splitLines (by decide) _ hlen',
    splitLines_find_and_append_data hF hT hlen₁ hM hT']
  exact find_and_return_inline_data_loop_map_append_line hT _
    (fun l hl => nulFree_of_mem_splitLines hF hl) hex

/-- Instance of C14: the calls of `main`, on the file `x`, `name=old`, `y`. -/
theorem find_and_return_after_append_witness :
    find_and_return_inline_data
        (find_and_append_data (ascii "x\nname=old\ny") (ascii "name=") (ascii "NAME_GENERIC"))
        (ascii "name=")
      = some (ascii "NAME_GENERIC") :=
  find_and_return_after_append (ascii "x\nname=old\ny") (ascii "name=") (ascii "NAME_GENERIC")
    (by decide) (by decide) (by decide) (by decide) (by decide) (by decide)
    ⟨ascii "name=old\n", by decide, by decide⟩

/-- C14 as stated fails when the marker ends with a line terminator: on the file with the
one line `a=1`, with marker `"1\n"` and insertion text `X` (no line terminator), the file
becomes `a=1`, `X`, all lines short, and reading back gives the empty string, the text after
the marker on the line `a=1`, not `X`. -/
theorem find_and_return_after_append_counterexample :
    NulFree (ascii "a=1\n") ∧ NulFree (ascii "X") ∧ NoLF (ascii "X") ∧
    ascii "1\n" <:+: ascii "a=1\n" ∧
    splitLines (ascii "a=1\n") = [ascii "a=1\n"] ∧
    splitLines (find_and_append_data (ascii "a=1\n") (ascii "1\n") (ascii "X"))
      = [ascii "a=1\n", ascii "X\n"] ∧
    find_and_return_inline_data
        (find_and_append_data (ascii "a=1\n") (ascii "1\n") (ascii "X")) (ascii "1\n")
      = some [] ∧
    find_and_return_inline_data
        (find_and_append_data (ascii "a=1\n") (ascii "1\n") (ascii "X")) (ascii "1\n")
      ≠ some (ascii "X") := by
  decide

/-- C15 (amended): for a NUL-free file `F`, a marker `M` and an insertion text `T`
(C strings), neither holding a line terminator, such that the lines of `F` and the rewritten
lines are at most 1023 bytes each: `find_and_append_data(F, M, T)` applied twice leaves the
same file content as applied once. -/
theorem find_and_append_data_idempotent (F M T : List Byte) (hF : NulFree F) (hT : NulFree T)
    (hM : NoLF M) (hT' : NoLF T) (hlen : ∀ l ∈ splitLines F, l.length ≤ 1023)
    (hlen' : ∀ l ∈ splitLines (find_and_append_data F M T), l.length ≤ 1023) :
    find_and_append_data (find_and_append_data F M T) M T = find_and_append_data F M T := by
  rw [find_and_append_data_eq_map _ M hT hlen',
    splitLines_find_and_append_data hF hT hlen hM hT', List.map_map,
    find_and_append_data_eq_map F M hT hlen]
  congr 1
  apply List.map_congr_left
  intro l hl
  exact append_line_append_line M (nulFree_of_mem_splitLines hF hl) hT

/-- Instance of C15 on the file `x`, `name=old`, `name=`, `y`. -/
theorem find_and_append_data_idempotent_witness :
    find_and_append_data
        (find_and_append_data (ascii "x\nname=old\nname=\ny") (ascii "name=") (ascii "NEW"))
        (ascii "name=") (ascii "NEW")
      = find_and_append_data (ascii "x\nname=old\nname=\ny") (ascii "name=") (ascii "NEW") :=
  find_and_append_data_idempotent (ascii "x\nname=old\nname=\ny") (ascii "name=") (ascii "NEW")
    (by decide) (by decide) (by decide) (by decide) (by decide) (by decide)

/-- C15 as stated fails when the marker ends with a line terminator: on the file with the
one line `a`, with marker `"\n"` and insertion text `X` (no line terminator), one call gives
the lines `a`, `X` and a second call gives `a`, `X`, `X`, `X`. -/
theorem find_and_append_data_idempotent_counterexample :
    NulFree (ascii "a\n") ∧ NulFree (ascii "X") ∧ NoLF (ascii "X") ∧
    (∀ l ∈ splitLines (ascii "a\n"), l.length ≤ 1023) ∧
    find_and_append_data (ascii "a\n") (ascii "\n") (ascii "X") = ascii "a\nX\n" ∧
    (∀ l ∈ splitLines (ascii "a\nX\n"), l.length ≤ 1023) ∧
    find_and_append_data (find_and_append_data (ascii "a\n") (ascii "\n") (ascii "X"))
        (ascii "\n") (ascii "X")
      = ascii "a\nX\nX\nX\n" ∧
    (∀ l ∈ splitLines (ascii "a\nX\nX\nX\n"), l.length ≤ 1023) ∧
    find_and_append_data (find_and_append_data (ascii "a\n") (ascii "\n") (ascii "X"))
        (ascii "\n") (ascii "X")
      ≠ find_and_append_data (ascii "a\n") (ascii "\n") (ascii "X") := by
  decide

/-! ## When `return_lines_from_to` returns NULL -/

theorem strstr_nil (h : List Byte) : strstr h [] = some 0 := by
  cases h <;> simp [strstr]

theorem return_lines_from_to_loop_recording_some (from_ to_ : List Byte)
    (L : List (List Byte)) (o : List Byte) :
    ∃ o', return_lines_from_to_loop from_ to_ L true (some o) = some o' := by
  induction L generalizing o with
  | nil => exact ⟨o, rfl⟩
  | cons l ls ih =>
    rw [return_lines_from_to_loop]
    by_cases h : (strstr (cstr l) to_).isSome = true
    · rw [if_pos h]; exact ⟨o, rfl⟩
    · rw [if_neg h]; exact ih _

theorem return_lines_from_to_loop_recording_none (from_ to_ : List Byte)
    (L : List (List Byte)) :
    return_lines_from_to_loop from_ to_ L true none = none ↔
      L = [] ∨ ∃ next after, L = next :: after ∧ (strstr (cstr next) to_).isSome = true := by
  cases L with
  | nil => simp [return_lines_from_to_loop]
  | cons l ls =>
    rw [return_lines_from_to_loop]
    by_cases h : (strstr (cstr l) to_).isSome = true
    · rw [if_pos h]
      simp [h]
    · rw [if_neg h]
      obtain ⟨o', ho'⟩ := return_lines_from_to_loop_recording_some from_ to_ ls
        ((none : Option (List Byte)).getD [] ++ cstr l)
      rw [ho']
      simp [h]

theorem noLineRecorded_cons_of_match {from_ to_ l : List Byte} (h : from_ <:+: l)
    (ls : List (List Byte)) :
    NoLineRecorded from_ to_ (l :: ls) ↔
      ls = [] ∨ ∃ next after, ls = next :: after ∧ to_ <:+: next := by
  constructor
  · rintro (h1 | ⟨before, lf, h1, h2, _⟩ | ⟨before, lf, next, after, h1, h2, _, h4⟩)
    · exact absurd h (h1 l (List.mem_cons_self l ls))
    · cases before with
      | nil =>
        simp only [List.nil_append, List.cons.injEq] at h1
        exact Or.inl h1.2
      | cons b bs =>
        simp only [List.cons_append, List.cons.injEq] at h1
        exact absurd (h1.1 ▸ h) (h2 b (List.mem_cons_self b bs))
    · cases before with
      | nil =>
        simp only [List.nil_append, List.cons.injEq] at h1
        exact Or.inr ⟨next, after, h1.2, h4⟩
      | cons b bs =>
        simp only [List.cons_append, List.cons.injEq] at h1
        exact absurd (h1.1 ▸ h) (h2 b (List.mem_cons_self b bs))
  · rintro (rfl | ⟨next, after, rfl, h1⟩)
    · exact Or.inr (Or.inl ⟨[], l, rfl, by simp, h⟩)
    · exact Or.inr (Or.inr ⟨[], l, next, after, rfl, by simp, h, h1⟩)

theorem noLineRecorded_cons_of_no_match {from_ to_ l : List Byte} (h : ¬ from_ <:+: l)
    (ls : List (List Byte)) :
    NoLineRecorded from_ to_ (l :: ls) ↔ NoLineRecorded from_ to_ ls := by
  constructor
  · rintro (h1 | ⟨before, lf, h1, h2, h3⟩ | ⟨before, lf, next, after, h1, h2, h3, h4⟩)
    · exact Or.inl (fun l' hl' => h1 l' (List.mem_cons_of_mem l hl'))
    · cases before with
      | nil =>
        simp only [List.nil_append, List.cons.injEq] at h1
        exact absurd (h1.1 ▸ h3) h
      | cons b bs =>
        simp only [List.cons_append, List.cons.injEq] at h1
        exact Or.inr (Or.inl ⟨bs, lf, h1.2,
          fun l' hl' => h2 l' (List.mem_cons_of_mem b hl'), h3⟩)
    · cases before with
      | nil =>
        simp only [List.nil_append, List.cons.injEq] at h1
        exact absurd (h1.1 ▸ h3) h
      | cons b bs =>
        simp only [List.cons_append, List.cons.injEq] at h1
        exact Or.inr (Or.inr ⟨bs, lf, next, after, h1.2,
          fun l' hl' => h2 l' (List.mem_cons_of_mem b hl'), h3, h4⟩)
  · have hcons : ∀ before : List (List Byte), (∀ l' ∈ before, ¬ from_ <:+: l') →
        ∀ l' ∈ l :: before, ¬ from_ <:+: l' := by
      intro before hb l' hl'
      rcases List.mem_cons.mp hl' with rfl | hl'
      · exact h
      · exact hb l' hl'
    rintro (h1 | ⟨before, lf, rfl, h2, h3⟩ | ⟨before, lf, next, after, rfl, h2, h3, h4⟩)
    · exact Or.inl (hcons ls h1)
    · exact Or.inr (Or.inl ⟨l :: before, lf, rfl, hcons before h2, h3⟩)
    · exact Or.inr (Or.inr ⟨l :: before, lf, next, after, rfl, hcons before h2, h3, h4⟩)

theorem return_lines_from_to_loop_eq_none_iff {from_ to_ : List Byte} {L : List (List Byte)}
    (hL : ∀ l ∈ L, NulFree l) :
    return_lines_from_to_loop from_ to_ L false none = none ↔ NoLineRecorded from_ to_ L := by
  induction L with
  | nil =>
    simp only [return_lines_from_to_loop, true_iff]
    exact Or.inl (fun l hl => absurd hl (List.not_mem_nil l))
  | cons l ls ih =>
    have hl := hL l (List.mem_cons_self l ls)
    rw [return_lines_from_to_loop, cstr_of_nulFree hl]
    by_cases h : from_ <:+: l
    · rw [if_pos ((strstr_isSome_iff l from_).mpr h), noLineRecorded_cons_of_match h,
        return_lines_from_to_loop_recording_none]
      apply or_congr Iff.rfl
      constructor
      · rintro ⟨next, after, rfl, hn⟩
        rw [cstr_of_nulFree (hL next (by simp)), strstr_isSome_iff] at hn
        exact ⟨next, after, rfl, hn⟩
      · rintro ⟨next, after, rfl, hn⟩
        refine ⟨next, after, rfl, ?_⟩
        rw [cstr_of_nulFree (hL next (by simp)), strstr_isSome_iff]
        exact hn
    · rw [if_neg (fun h' => h ((strstr_isSome_iff l from_).mp h')),
        noLineRecorded_cons_of_no_match h]
      exact ih (fun l' hl' => hL l' (List.mem_cons_of_mem l hl'))

theorem return_lines_from_to_loop_nil_marker (from_ : List Byte) (L : List (List Byte)) :
    return_lines_from_to_loop from_ [] L true none = none ∧
      return_lines_from_to_loop from_ [] L false none = none := by
  induction L with
  | nil => exact ⟨rfl, rfl⟩
  | cons l ls ih =>
    constructor
    · rw [return_lines_from_to_loop, strstr_nil]; rfl
    · rw [return_lines_from_to_loop]
      split
      · exact ih.1
      · exact ih.2

/-- C16 (amended): for a NUL-free file `F` whose lines are at most 1023 bytes each and
markers `from_`, `to_`: `return_lines_from_to` returns NULL if and only if no line was
recorded, that is, no line contains `from_`, or the first line containing `from_` is the last
line of the file, or the line right after the first line containing `from_` contains `to_`; in
every other case the result is present. With the empty string as `to_` the result is NULL. -/
theorem return_lines_from_to_eq_none_iff (F from_ to_ : List Byte) (hF : NulFree F)
    (hlen : ∀ l ∈ splitLines F, l.length ≤ 1023) :
    (return_lines_from_to F from_ to_ = none ↔ NoLineRecorded from_ to_ (splitLines F)) ∧
    (¬ NoLineRecorded from_ to_ (splitLines F) →
      ∃ r, return_lines_from_to F from_ to_ = some r) ∧
    (to_ = [] → return_lines_from_to F from_ to_ = none) := by
  have hiff : return_lines_from_to F from_ to_ = none
      ↔ NoLineRecorded from_ to_ (splitLines F) := by
    unfold return_lines_from_to
    rw [Option.map_eq_none', read_lines_eq_splitLines (by decide) F hlen]
    exact return_lines_from_to_loop_eq_none_iff (fun l hl => nulFree_of_mem_splitLines hF hl)
  refine ⟨hiff, ?_, ?_⟩
  · intro hno
    cases hr : return_lines_from_to F from_ to_ with
    | none => exact absurd (hiff.mp hr) hno
    | some r => exact ⟨r, rfl⟩
  · rintro rfl
    unfold return_lines_from_to
    rw [(return_lines_from_to_loop_nil_marker from_ _).2]
    rfl

/-- Instance of C16: on the lines `begin`, an empty line, `end` the result is present and
empty; on the lines `begin`, `end` it is NULL. -/
theorem return_lines_from_to_eq_none_iff_witness :
    return_lines_from_to (ascii "begin\n\nend\n") (ascii "begin") (ascii "end") = some [] ∧
    ¬ NoLineRecorded (ascii "begin") (ascii "end") (splitLines (ascii "begin\n\nend\n")) ∧
    return_lines_from_to (ascii "begin\nend\n") (ascii "begin") (ascii "end") = none :=
  ⟨by decide,
    fun h => absurd ((return_lines_from_to_eq_none_iff (ascii "begin\n\nend\n")
      (ascii "begin") (ascii "end") (by decide) (by decide)).1.mpr h) (by decide),
    (return_lines_from_to_eq_none_iff (ascii "begin\nend\n") (ascii "begin") (ascii "end")
      (by decide) (by decide)).1.mpr
      (Or.inr (Or.inr ⟨[], ascii "begin\n", ascii "end\n", [], by decide,
        fun _ h => absurd h (List.not_mem_nil _), by decide, by decide⟩))⟩

/-- C16 as stated fails on a file with a NUL byte: on the two lines NUL `a` and `b`, with
`from_` the string `a` and `to_` the string `z`, the first line contains `from_`, is not
the last line, and the line after it does not contain `to_`, yet the result is NULL:
`strstr` sees the empty string in the first buffer. -/
theorem return_lines_from_to_eq_none_counterexample :
    (∀ l ∈ splitLines (0 :: ascii "a\nb\n"), l.length ≤ 1023) ∧
    splitLines (0 :: ascii "a\nb\n") = [0 :: ascii "a\n", ascii "b\n"] ∧
    ascii "a" <:+: 0 :: ascii "a\n" ∧ ¬ ascii "z" <:+: ascii "b\n" ∧
    return_lines_from_to (0 :: ascii "a\nb\n") (ascii "a") (ascii "z") = none ∧
    ¬ NoLineRecorded (ascii "a") (ascii "z") (splitLines (0 :: ascii "a\nb\n")) := by
  refine ⟨by decide, by decide, by decide, by decide, by decide, ?_⟩
  rw [show splitLines (0 :: ascii "a\nb\n") = [0 :: ascii "a\n", ascii "b\n"] from by decide,
    noLineRecorded_cons_of_match (by decide)]
  rintro (h | ⟨next, after, h, hz⟩)
  · exact absurd h (by decide)
  · obtain ⟨rfl, _⟩ := List.cons.inj h
    exact absurd hz (by decide)

/-! ## Lines longer than the buffer -/

theorem fgets_take_eq_take {l : List Byte} (hl : TerminatorLast l) (room : Nat) :
    fgets_take room l = l.take room := by
  induction l generalizing room with
  | nil => cases room <;> simp [fgets_take]
  | cons c s ih =>
    cases room with
    | zero => simp [fgets_take]
    | succ room =>
      by_cases hc : c = LF
      · have hs : s = [] := hl [] s (by rw [hc]; rfl)
        subst hs
        simp [fgets_take, hc]
      · have hs : TerminatorLast s :=
          terminatorLast_of_isInfix (List.suffix_cons c s).isInfix hl
        simp [fgets_take, hc, ih hs]

/-- Reading a stream that begins with complete lines `l`: the first buffer is read from `l`
alone. -/
theorem fgets_take_append_of_line {l rest : List Byte}
    (h : l = [] ∧ rest = [] ∨ l.getLast? = some LF ∨ rest = []) (room : Nat) :
    fgets_take room (l ++ rest) = fgets_take room l := by
  induction l generalizing room with
  | nil =>
    rcases h with ⟨_, h⟩ | h | h
    · subst h; rfl
    · simp at h
    · subst h; rfl
  | cons c s ih =>
    cases room with
    | zero => simp [fgets_take]
    | succ room =>
      by_cases hc : c = LF
      · simp [fgets_take, hc]
      · simp only [List.cons_append, fgets_take, hc, if_false, List.cons.injEq, true_and]
        apply ih
        rcases h with ⟨h, _⟩ | h | h
        · simp at h
        · cases s with
          | nil =>
            simp only [List.getLast?_singleton, Option.some.injEq] at h
            exact absurd h hc
          | cons x s =>
            rw [List.getLast?_cons_cons] at h
            exact Or.inr (Or.inl h)
        · exact Or.inr (Or.inr h)

theorem read_lines_append_of_line {size : Nat} (hsize : 2 ≤ size) (rest : List Byte) :
    ∀ l : List Byte, (l = [] ∨ l.getLast? = some LF ∨ rest = []) →
      read_lines size (l ++ rest) = read_lines size l ++ read_lines size rest := by
  intro l
  induction l using read_lines_induction hsize with
  | hnil => intro _; simp [read_lines_nil]
  | hcons l hl ih =>
    intro h
    have h' : l.getLast? = some LF ∨ rest = [] := by
      rcases h with h | h
      · exact absurd h hl
      · exact h
    have hne : l ++ rest ≠ [] := by simp [hl]
    have hle : (fgets_take (size - 1) l).length ≤ l.length :=
      (fgets_take_isPrefix _ l).length_le
    rw [read_lines_cons hsize hne, read_lines_cons hsize hl,
      fgets_take_append_of_line (Or.inr h'), List.drop_append_of_le_length hle,
      List.cons_append]
    congr 1
    apply ih
    by_cases hd : l.length ≤ (fgets_take (size - 1) l).length
    · exact Or.inl (List.drop_eq_nil_of_le hd)
    · rcases h' with h' | h'
      · right; left
        rw [List.getLast?_drop, if_neg hd]
        exact h'
      · exact Or.inr (Or.inr h')

/-- The buffers read from a file are the buffers read from each of its lines. -/
theorem read_lines_flatten_of_wellSplit {size : Nat} (hsize : 2 ≤ size)
    {L : List (List Byte)} (h : WellSplit L) :
    read_lines size L.flatten = L.flatMap (read_lines size) := by
  induction L with
  | nil => rfl
  | cons l ls ih =>
    obtain ⟨_, _, h3, h4⟩ := h
    rw [List.flatten_cons, List.flatMap_cons, ← ih h4]
    apply read_lines_append_of_line hsize
    by_cases hls : ls = []
    · subst hls; exact Or.inr (Or.inr rfl)
    · exact Or.inr (Or.inl (h3 hls))

theorem flatten_map_flatMap {α β γ : Type} (f : α → List β) (g : β → List γ) (L : List α) :
    ((L.flatMap f).map g).flatten = (L.map (fun a => ((f a).map g).flatten)).flatten := by
  induction L with
  | nil => rfl
  | cons a L ih => simp [ih]

/-- The temporary file holds, line after line, what the first loop writes for that line. -/
theorem staged_eq_lines (F M T : List Byte) :
    staged F M T = ((splitLines F).map (fun l => staged l M T)).flatten := by
  unfold staged
  conv_lhs => rw [← flatten_splitLines F]
  rw [read_lines_flatten_of_wellSplit (by decide) (wellSplit_splitLines F), flatten_map_flatMap]

theorem terminatorLast_of_noLF_dropLast {l : List Byte} (h : NoLF l.dropLast) :
    TerminatorLast l := by
  intro a b hab
  by_contra hb
  apply h LF _ rfl
  rw [hab, List.dropLast_append_of_ne_nil _ (by simp), List.dropLast_cons_of_ne_nil hb]
  simp

theorem terminatorLast_of_mem_wellSplit {L : List (List Byte)} (h : WellSplit L) :
    ∀ l ∈ L, TerminatorLast l := by
  induction L with
  | nil => intro l hl; simp at hl
  | cons a L ih =>
    intro l hl
    rcases List.mem_cons.mp hl with rfl | hl
    · exact terminatorLast_of_noLF_dropLast h.2.1
    · exact ih h.2.2.2 l hl

/-- The buffers read from one line start at the multiples of 1023. -/
theorem offset_of_mem_read_lines_line :
    ∀ l : List Byte, TerminatorLast l → ∀ c ∈ read_lines 1024 l,
      ∃ j A B, l = A ++ c ++ B ∧ A.length = 1023 * j := by
  intro l
  induction l using read_lines_induction (show 2 ≤ 1024 by decide) with
  | hnil => intro _ c hc; simp [read_lines_nil] at hc
  | hcons l hl ih =>
    intro hterm c hc
    rw [read_lines_cons (by decide) hl] at hc
    rcases List.mem_cons.mp hc with rfl | hc
    · exact ⟨0, [], l.drop (fgets_take (1024 - 1) l).length,
        by simpa using (fgets_take_append_drop _ l).symm, rfl⟩
    · have htake : fgets_take (1024 - 1) l = l.take 1023 := fgets_take_eq_take hterm _
      rw [htake] at hc ih
      have hlen : (l.take 1023).length = 1023 := by
        by_contra hne
        have hlt : l.length ≤ (l.take 1023).length := by
          simp only [List.length_take] at hne ⊢
          omega
        rw [List.drop_eq_nil_of_le hlt] at hc
        simp [read_lines_nil] at hc
      obtain ⟨j, A, B, hAB, hA⟩ :=
        ih (terminatorLast_of_isInfix (List.drop_suffix _ _).isInfix hterm) c hc
      refine ⟨j + 1, l.take 1023 ++ A, B, ?_, ?_⟩
      · rw [List.append_assoc, List.append_assoc, ← List.append_assoc A, ← hAB, hlen,
          List.take_append_drop]
      · rw [List.length_append, hlen, hA]; omega

/-- What `find_and_append_data` leaves in the file holds no NUL byte: it is written by
`fputs`. -/
theorem nulFree_find_and_append_data (F M T : List Byte) :
    NulFree (find_and_append_data F M T) := by
  rw [find_and_append_data_eq_copied]
  apply nulFree_flatten
  intro l hl
  obtain ⟨c, _, rfl⟩ := List.mem_map.mp hl
  exact nulFree_cstr c

/-- After bytes `R` without `x`, a marker that begins with `x`, a byte not found in what
follows, occurs at the offset of the length of `R` only. -/
theorem length_eq_of_occurrence_after {R : List Byte} {x : Byte}
    {m B pre post : List Byte} (hxR : x ∉ R) (hxB : x ∉ m ++ B)
    (h : R ++ (x :: m ++ B) = pre ++ (x :: m) ++ post) :
    pre.length = R.length := by
  have hx : (R ++ (x :: m ++ B))[pre.length]? = some x := by
    rw [h, List.append_assoc, List.getElem?_append_right (Nat.le_refl _), Nat.sub_self]
    simp
  rcases Nat.lt_trichotomy pre.length R.length with hlt | heq | hgt
  · rw [List.getElem?_append_left hlt] at hx
    exact absurd (List.getElem?_mem hx) hxR
  · exact heq
  · rw [List.getElem?_append_right (by omega)] at hx
    obtain ⟨i, hi⟩ : ∃ i, pre.length - R.length = i + 1 :=
      ⟨pre.length - R.length - 1, by omega⟩
    rw [hi, List.cons_append, List.getElem?_cons_succ] at hx
    exact absurd (List.getElem?_mem hx) hxB

/-- C11 (amended): in `find_and_append_data`, on a NUL-free file with an insertion text `T`
(a C string), every line `l` is processed as its successive buffers of at most 1023 bytes,
each searched for `M` on its own, and the file ends up as the pieces written for its lines.
For a line in which every occurrence of `M` straddles a buffer boundary (it begins before
a multiple of 1023 and ends after it), no buffer contains `M` and the line is written back
unchanged, although the line may contain `M`. -/
theorem find_and_append_data_straddling (F M T : List Byte) (hF : NulFree F)
    (hT : NulFree T) :
    find_and_append_data F M T = ((splitLines F).map (fun l => staged l M T)).flatten ∧
    ∀ l ∈ splitLines F,
      (read_lines 1024 l).flatten = l ∧ (∀ c ∈ read_lines 1024 l, c.length ≤ 1023) ∧
      ((∀ pre post, l = pre ++ M ++ post →
          ∃ k, pre.length < 1023 * k ∧ 1023 * k < pre.length + M.length) →
        (∀ c ∈ read_lines 1024 l, ¬ M <:+: c) ∧ staged l M T = l) := by
  refine ⟨by rw [find_and_append_data_eq_staged F M hT, staged_eq_lines], ?_⟩
  intro l hl
  have hnf : NulFree l := nulFree_of_mem_splitLines hF hl
  have hterm : TerminatorLast l :=
    terminatorLast_of_mem_wellSplit (wellSplit_splitLines F) l hl
  refine ⟨flatten_read_lines (by decide) l, length_le_of_mem_read_lines (by decide) l, ?_⟩
  intro hstr
  have hno : ∀ c ∈ read_lines 1024 l, ¬ M <:+: c := by
    intro c hc hM
    obtain ⟨p, q, hpq⟩ := hM
    obtain ⟨j, A, B, hAB, hA⟩ := offset_of_mem_read_lines_line l hterm c hc
    have hclen : c.length ≤ 1023 := length_le_of_mem_read_lines (by decide) l c hc
    obtain ⟨k, hk1, hk2⟩ := hstr (A ++ p) (q ++ B) (by rw [hAB, ← hpq]; simp)
    rw [← hpq] at hclen
    simp only [List.length_append] at hclen hk1 hk2
    omega
  refine ⟨hno, ?_⟩
  unfold staged
  have hmap : (read_lines 1024 l).map (append_line M T) = read_lines 1024 l := by
    conv_rhs => rw [← List.map_id (read_lines 1024 l)]
    apply List.map_congr_left
    intro c hc
    exact append_line_of_no_match T
      (NulFree.of_isInfix (infix_of_mem_read_lines (by decide) hc) hnf) (hno c hc)
  rw [hmap, flatten_read_lines (by decide)]

/-- Instance of C11: the line made of 1022 bytes `a`, then `xy`, then a line terminator is
1025 bytes long and contains `xy` across the boundary of its two buffers; no buffer contains
`xy`, and the file is left as it is. -/
theorem find_and_append_data_straddling_witness :
    1023 < (List.replicate 1022 97 ++ ascii "xy\n").length ∧
    ascii "xy" <:+: List.replicate 1022 97 ++ ascii "xy\n" ∧
    (∀ c ∈ read_lines 1024 (List.replicate 1022 97 ++ ascii "xy\n"), ¬ ascii "xy" <:+: c) ∧
    find_and_append_data (List.replicate 1022 97 ++ ascii "xy\n") (ascii "xy") (ascii "NEW")
      = List.replicate 1022 97 ++ ascii "xy\n" := by
  have hxy : ascii "xy" = [120, 121] := by decide
  have hxyn : ascii "xy\n" = [120, 121, 10] := by decide
  generalize hR : List.replicate 1022 97 = R
  have hRb : ∀ b ∈ R, b = 97 := by
    intro b hb
    rw [← hR] at hb
    exact List.eq_of_mem_replicate hb
  have hRlen : R.length = 1022 := by rw [← hR, List.length_replicate]
  clear hR
  have hF : NulFree (R ++ ascii "xy\n") := by
    intro b hb
    rcases List.mem_append.mp hb with hb | hb
    · rw [hRb b hb]; decide
    · exact (by decide : NulFree (ascii "xy\n")) b hb
  have hd : NoLF (R ++ [120, 121]) := by
    intro b hb
    rcases List.mem_append.mp hb with hb | hb
    · rw [hRb b hb]; decide
    · exact (by decide : NoLF [120, 121]) b hb
  have hlines : splitLines (R ++ ascii "xy\n") = [R ++ ascii "xy\n"] := by
    have := splitLines_append_line LF [] hd (Or.inl rfl)
    simpa [hxyn, splitLines] using this
  obtain ⟨h1, h2⟩ := find_and_append_data_straddling (R ++ ascii "xy\n")
    (ascii "xy") (ascii "NEW") hF (by decide)
  obtain ⟨_, _, h3⟩ := h2 (R ++ ascii "xy\n") (by rw [hlines]; simp)
  obtain ⟨h4, h5⟩ := h3 (by
    intro pre post h
    rw [hxy, hxyn] at h
    have hpre : pre.length = R.length :=
      length_eq_of_occurrence_after (x := 120) (m := [121]) (B := [10])
        (fun hx => absurd (hRb 120 hx) (by decide)) (by decide) h
    refine ⟨1, by omega, ?_⟩
    rw [hxy, hpre, hRlen]; decide)
  refine ⟨?_, ⟨R, ascii "\n", ?_⟩, h4, ?_⟩
  · rw [hxyn, List.length_append, hRlen]; decide
  · rw [hxy, hxyn, show ascii "\n" = [10] from by decide]; simp
  · rw [h1, hlines]; simp [h5]

/-- C11 as stated fails on a line with a NUL byte: the line made of 1022 bytes `a`, then `xy`,
a NUL byte and a line terminator is 1026 bytes long, its only occurrence of `xy` straddles
the boundary of its two buffers, and no buffer matches; but the file is not left as it is,
the second buffer being written back as the C string it holds, up to the NUL byte. -/
theorem find_and_append_data_straddling_counterexample :
    splitLines (List.replicate 1022 97 ++ (ascii "xy" ++ [0, LF]))
      = [List.replicate 1022 97 ++ (ascii "xy" ++ [0, LF])] ∧
    1023 < (List.replicate 1022 97 ++ (ascii "xy" ++ [0, LF])).length ∧
    ascii "xy" <:+: List.replicate 1022 97 ++ (ascii "xy" ++ [0, LF]) ∧
    (∀ pre post, List.replicate 1022 97 ++ (ascii "xy" ++ [0, LF]) = pre ++ ascii "xy" ++ post →
      ∃ k, pre.length < 1023 * k ∧ 1023 * k < pre.length + (ascii "xy").length) ∧
    find_and_append_data (List.replicate 1022 97 ++ (ascii "xy" ++ [0, LF])) (ascii "xy")
        (ascii "NEW")
      ≠ List.replicate 1022 97 ++ (ascii "xy" ++ [0, LF]) := by
  have hxy : ascii "xy" = [120, 121] := by decide
  generalize hR : List.replicate 1022 97 = R
  have hRb : ∀ b ∈ R, b = 97 := by
    intro b hb
    rw [← hR] at hb
    exact List.eq_of_mem_replicate hb
  have hRlen : R.length = 1022 := by rw [← hR, List.length_replicate]
  clear hR
  have hd : NoLF (R ++ [120, 121, 0]) := by
    intro b hb
    rcases List.mem_append.mp hb with hb | hb
    · rw [hRb b hb]; decide
    · exact (by decide : NoLF [120, 121, 0]) b hb
  refine ⟨?_, ?_, ⟨R, [0, LF], by simp⟩, ?_, ?_⟩
  · have := splitLines_append_line LF [] hd (Or.inl rfl)
    simpa [hxy, splitLines] using this
  · rw [hxy, List.length_append, hRlen]; decide
  · intro pre post h
    rw [hxy] at h
    have hpre : pre.length = R.length :=
      length_eq_of_occurrence_after (x := 120) (m := [121]) (B := [0, 10])
        (fun hx => absurd (hRb 120 hx) (by decide)) (by decide) h
    refine ⟨1, by omega, ?_⟩
    rw [hxy, hpre, hRlen]; decide
  · intro h
    have hnf := nulFree_find_and_append_data (R ++ (ascii "xy" ++ [0, LF]))
      (ascii "xy") (ascii "NEW")
    rw [h] at hnf
    exact hnf 0 (by simp) rfl

end PasswordManager
